import Mathlib

/-!
# Flashcards (Go), `task/main.go`: deck, statistics, import/export, quiz, hardest card

A shallow embedding of the command-line flash-card manager, and the properties of it that
the specification states.

* A Go `map[string]V` is a `GoMap V`: a list of key/value pairs without repeated keys.
  The order of the list stands for the order in which `range` visits the map, which Go
  leaves unspecified; a statement about every `GoMap` is a statement about every iteration
  order.
* Go `int` is `Int` with the bounds `minInt` and `maxInt` of a 64-bit platform; `++` wraps.
* A Go `string` is a Lean `String`, the regular expression works on its characters.
* The lines `getInput` returns are a `List String` consumed from the front; reading past its
  end is the panic of `errCheck` on `io.EOF`.
* A file is the text in it, its size counted in bytes of UTF-8. `Import` reads it through the
  model of `bufio.Scanner` (`scanLoop`: lines split at the newline, tokens limited to 64 KiB);
  `Export` gives the text it writes from the start of the file.
* The random source is the raw draw handed to `Intn`, one for each question.
* A panic is `Except.error c`, where `c` is the state of the cards when the panic was raised.
  What the methods print is left out, except for the result of `HardestCard`.
-/

/-! ## Go maps -/

/-- A Go `map[string]V`: key/value pairs, no key twice. -/
structure GoMap (V : Type) where
  entries : List (String × V)
  nodup : (entries.map Prod.fst).Nodup
  deriving DecidableEq

namespace GoMap

variable {V : Type}

/-- The map literal `map[string]V{}`. -/
def empty : GoMap V := ⟨[], List.nodup_nil⟩

/-- Search of a key in a list of pairs. -/
def lookupList (k : String) : List (String × V) → Option V
  | [] => none
  | (a, v) :: rest => if k = a then some v else lookupList k rest

/-- The comma-ok read `v, ok := m[k]`. -/
def lookup (m : GoMap V) (k : String) : Option V := lookupList k m.entries

/-- The test `_, ok := m[k]`. -/
def contains (m : GoMap V) (k : String) : Bool := (m.lookup k).isSome

/-- The pairs of a list whose key is not `k`. -/
def eraseKey (k : String) : List (String × V) → List (String × V)
  | [] => []
  | (a, v) :: rest => if a = k then eraseKey k rest else (a, v) :: eraseKey k rest

theorem mem_eraseKey (k : String) (l : List (String × V)) (e : String × V) :
    e ∈ eraseKey k l ↔ e ∈ l ∧ e.1 ≠ k := by
  induction l with
  | nil => simp [eraseKey]
  | cons x rest ih =>
    obtain ⟨a, v⟩ := x
    by_cases ha : a = k
    · simp only [eraseKey, ha, if_true, ih, List.mem_cons]
      constructor
      · rintro ⟨h1, h2⟩; exact ⟨Or.inr h1, h2⟩
      · rintro ⟨h1 | h1, h2⟩
        · subst h1; exact absurd rfl h2
        · exact ⟨h1, h2⟩
    · simp only [eraseKey, ha, if_false, List.mem_cons, ih]
      constructor
      · rintro (h1 | ⟨h1, h2⟩)
        · subst h1; exact ⟨Or.inl rfl, ha⟩
        · exact ⟨Or.inr h1, h2⟩
      · rintro ⟨h1 | h1, h2⟩
        · exact Or.inl h1
        · exact Or.inr ⟨h1, h2⟩

theorem mem_keys_eraseKey (k : String) (l : List (String × V)) (x : String) :
    x ∈ (eraseKey k l).map Prod.fst ↔ x ∈ l.map Prod.fst ∧ x ≠ k := by
  simp only [List.mem_map, mem_eraseKey]
  constructor
  · rintro ⟨e, ⟨h1, h2⟩, rfl⟩; exact ⟨⟨e, h1, rfl⟩, h2⟩
  · rintro ⟨⟨e, h1, rfl⟩, h2⟩; exact ⟨e, ⟨h1, h2⟩, rfl⟩

theorem nodup_eraseKey (k : String) (l : List (String × V)) (h : (l.map Prod.fst).Nodup) :
    ((eraseKey k l).map Prod.fst).Nodup := by
  induction l with
  | nil => simp [eraseKey]
  | cons x rest ih =>
    obtain ⟨a, v⟩ := x
    simp only [List.map_cons, List.nodup_cons] at h
    by_cases ha : a = k
    · simpa [eraseKey, ha] using ih h.2
    · simp only [eraseKey, ha, if_false, List.map_cons, List.nodup_cons]
      exact ⟨fun hm => h.1 ((mem_keys_eraseKey k rest a).1 hm).1, ih h.2⟩

theorem not_mem_keys_eraseKey (k : String) (l : List (String × V)) :
    k ∉ (eraseKey k l).map Prod.fst :=
  fun h => ((mem_keys_eraseKey k l k).1 h).2 rfl

/-- The statement `delete(m, k)`. -/
def delete (m : GoMap V) (k : String) : GoMap V :=
  ⟨eraseKey k m.entries, nodup_eraseKey _ _ m.nodup⟩

/-- The assignment `m[k] = v`. -/
def set (m : GoMap V) (k : String) (v : V) : GoMap V :=
  ⟨(k, v) :: eraseKey k m.entries,
    List.nodup_cons.2 ⟨not_mem_keys_eraseKey _ _, nodup_eraseKey _ _ m.nodup⟩⟩

/-- The builtin `len(m)`. -/
def len (m : GoMap V) : Nat := m.entries.length

/-- The keys in iteration order. -/
def keys (m : GoMap V) : List String := m.entries.map Prod.fst

end GoMap

/-- The read `m[k]` of a `map[string]string`: the zero value `""` for a missing key. -/
def GoMap.strAt (m : GoMap String) (k : String) : String := (m.lookup k).getD ""

/-- The read `m[k]` of a `map[string]int`: the zero value `0` for a missing key. -/
def GoMap.intAt (m : GoMap Int) (k : String) : Int := (m.lookup k).getD 0

/-! ## Go `int`, `strconv.Atoi`, the verb `%d` -/

/-- The constant `strconv.IntSize` of a 64-bit platform. -/
def intSize : Nat := 64

/-- The largest `int`. -/
def maxInt : Int := 2 ^ (intSize - 1) - 1

/-- The smallest `int`. -/
def minInt : Int := -(2 ^ (intSize - 1))

/-- Wrap-around of an `int` result, as in the arithmetic of the machine. -/
def wrapInt (x : Int) : Int := (x - minInt) % 2 ^ intSize + minInt

/-- Base-10 value of a run of ASCII digits, continuing from `acc`; `none` on any other
character. -/
def parseDigits : List Char → Nat → Option Nat
  | [], acc => some acc
  | ch :: rest, acc =>
    if ch.isDigit then parseDigits rest (acc * 10 + (ch.toNat - 48)) else none

/-- The library function `strconv.Atoi`: an optional sign, at least one decimal digit, and a
value that fits `int`; `none` is a non-nil error (syntax or range). -/
def atoi (s : String) : Option Int :=
  match s.data with
  | [] => none
  | ch :: rest =>
    if ch = '-' then
      if rest = [] then none
      else match parseDigits rest 0 with
        | none => none
        | some n => if -(n : Int) < minInt then none else some (-(n : Int))
    else
      let ds := if ch = '+' then rest else ch :: rest
      if ds = [] then none
      else match parseDigits ds 0 with
        | none => none
        | some n => if maxInt < (n : Int) then none else some (n : Int)

/-- The character of a decimal digit. -/
def digitChar (d : Nat) : Char := Char.ofNat (d + 48)

/-- The digits of `n` put before `acc`, the last digit first; `fuel` bounds the number of
divisions by ten. -/
def fmtNatAux : Nat → Nat → List Char → List Char
  | 0, _, acc => acc
  | fuel + 1, n, acc =>
    if n < 10 then digitChar n :: acc
    else fmtNatAux fuel (n / 10) (digitChar (n % 10) :: acc)

/-- Decimal digits of a natural number, most significant first. -/
def fmtNat (n : Nat) : List Char := fmtNatAux (n + 1) n []

/-- The verb `%d` applied to an `int`. -/
def fmtInt (m : Int) : List Char :=
  if m < 0 then '-' :: fmtNat (-m).toNat else fmtNat m.toNat

/-! ## The card pattern `^\("([^"]+)":"([^"]+)"\):\((\d+)\)$` -/

/-- A literal piece of the pattern: `s` without the leading `p`, if it starts with `p`. -/
def stripLit : List Char → List Char → Option (List Char)
  | [], s => some s
  | _ :: _, [] => none
  | a :: p, b :: s => if a = b then stripLit p s else none

/-- A greedy `+` over a character class: the longest run of characters in the class, which
must not be empty, and what follows it. -/
def spanPlus (cls : Char → Bool) (s : List Char) : Option (List Char × List Char) :=
  if (s.span cls).1 = [] then none else some (s.span cls)

/-- The class `[^"]`. -/
def notQuote (ch : Char) : Bool := decide (ch ≠ '"')

/-- The class `\d`. -/
def isDigitCls (ch : Char) : Bool := ch.isDigit

/-- The capture groups 1, 2, 3 of `parser.FindStringSubmatch(line)`, or `none` when the line
does not match (a nil slice). Both ends are anchored and each class is followed by a
character outside it, so the greedy runs are the only way to match. -/
def findStringSubmatch (line : List Char) : Option (List Char × List Char × List Char) :=
  match stripLit ['(', '"'] line with
  | none => none
  | some s1 =>
    match spanPlus notQuote s1 with
    | none => none
    | some (t, s2) =>
      match stripLit ['"', ':', '"'] s2 with
      | none => none
      | some s3 =>
        match spanPlus notQuote s3 with
        | none => none
        | some (d, s4) =>
          match stripLit ['"', ')', ':', '('] s4 with
          | none => none
          | some s5 =>
            match spanPlus isDigitCls s5 with
            | none => none
            | some (m, s6) => if s6 = [')'] then some (t, d, m) else none

/-- The line `("T":"D"):(N)` as a list of characters. -/
def cardChars (T D N : List Char) : List Char :=
  ['(', '"'] ++ T ++ ['"', ':', '"'] ++ D ++ ['"', ')', ':', '('] ++ N ++ [')']

/-- Decimal value of a run of digits. -/
def decimalValue (N : List Char) : Nat :=
  N.foldl (fun acc ch => acc * 10 + (ch.toNat - 48)) 0

/-! ## The scanner `bufio.NewScanner(file)` with its default split `ScanLines` -/

/-- The constant `bufio.MaxScanTokenSize`, the size the buffer of a scanner may grow to. -/
def maxScanTokenSize : Nat := 64 * 1024

/-- Number of bytes of a text in a file. -/
def byteLen : List Char → Nat
  | [] => 0
  | ch :: rest => ch.utf8Size + byteLen rest

/-- The helper `dropCR` of `bufio.ScanLines`: the line without one final carriage return. -/
def dropCR (l : List Char) : List Char :=
  if l.getLast? = some '\r' then l.dropLast else l

/-- The calls of `scanner.Scan()` over the text still to read, `cur` being the part of the
current line already read: the lines `scanner.Text()` delivers, and whether the scanner ends
with an error. A line is delivered when it fits the buffer together with its newline, that
is when it has fewer than `maxScanTokenSize` bytes; a longer one ends the scan with
`ErrTooLong`. A last line without newline is delivered when it is not empty. When the
reading ends with an error of the file instead of its end (`readErr`), the lines completed
before are delivered and the scanner ends with that error. -/
def scanLoop (readErr : Bool) : List Char → List Char → List String × Bool
  | [], cur =>
    if readErr then ([], true)
    else if cur = [] then ([], false)
    else if maxScanTokenSize ≤ byteLen cur then ([], true)
    else ([String.mk (dropCR cur)], false)
  | ch :: rest, cur =>
    if ch = '\n' then
      if maxScanTokenSize ≤ byteLen cur then ([], true)
      else (String.mk (dropCR cur) :: (scanLoop readErr rest []).1, (scanLoop readErr rest []).2)
    else scanLoop readErr rest (cur ++ [ch])

/-- The text of a file into which the given lines were printed with `"%s\n"` each. -/
def written : List String → String
  | [] => ""
  | l :: rest => String.mk (l.data ++ '\n' :: (written rest).data)

/-! ## The cards -/

/-- The struct `Flashcards`: `term` is `Deck["term"]`, `definition` is `Deck["definition"]`,
`mistakes` is `Stats["mistakes"]`. The log buffer and the command-line parameters play no
part in the operations below. -/
structure Flashcards where
  term : GoMap String
  definition : GoMap String
  mistakes : GoMap Int
  deriving DecidableEq

/-- The two keys of `Deck` that `addEntry` is called with. -/
inductive DeckGroup where
  | term
  | definition
  deriving DecidableEq

deriving instance DecidableEq for Except

/-- Outcome of an operation that reads input: the new state and the unread input, or a
panic carrying the state in which it was raised. -/
abbrev Run := Except Flashcards (Flashcards × List String)

namespace Flashcards

/-- The maps as `init` allocates them. -/
def init : Flashcards := ⟨GoMap.empty, GoMap.empty, GoMap.empty⟩

/-- The sub-map `cards.Deck[group]`. -/
def deck (c : Flashcards) : DeckGroup → GoMap String
  | .term => c.term
  | .definition => c.definition

/-- The assignment `cards.Deck[group][entry] = v`. -/
def setDeck (c : Flashcards) (group : DeckGroup) (entry v : String) : Flashcards :=
  match group with
  | .term => { c with term := c.term.set entry v }
  | .definition => { c with definition := c.definition.set entry v }

/-- The method `addEntry`: the empty string when the entry is empty or already a key of its
group, otherwise the entry itself, stored with the placeholder value `""`. -/
def addEntry (group : DeckGroup) (entry : String) (c : Flashcards) : Flashcards × String :=
  if entry = "" then (c, "")
  else if (c.deck group).contains entry then (c, "")
  else (c.setDeck group entry "", entry)

/-- One of the loops `for x == "" { x = cards.addEntry(group, cards.getInput()) }` of `Add`:
the state, the accepted entry and the unread input. -/
def addLoop (group : DeckGroup) :
    List String → Flashcards → Except Flashcards (Flashcards × String × List String)
  | [], c => .error c
  | x :: rest, c =>
    if (addEntry group x c).2 = "" then addLoop group rest (addEntry group x c).1
    else .ok ((addEntry group x c).1, (addEntry group x c).2, rest)

/-- The three assignments that end `Add`. -/
def commit (c : Flashcards) (term definition : String) : Flashcards :=
  { term := c.term.set term definition
    definition := c.definition.set definition term
    mistakes := c.mistakes.set term 0 }

/-- The method `Add`. -/
def Add (inputs : List String) (c : Flashcards) : Run :=
  match addLoop .term inputs c with
  | .error e => .error e
  | .ok (c1, term, rest) =>
    match addLoop .definition rest c1 with
    | .error e => .error e
    | .ok (c2, definition, rest2) => .ok (commit c2 term definition, rest2)

/-- The method `Remove`. -/
def Remove (inputs : List String) (c : Flashcards) : Run :=
  match inputs with
  | [] => .error c
  | term :: rest =>
    match c.term.lookup term with
    | some definition =>
      .ok ({ term := c.term.delete term
             definition := c.definition.delete definition
             mistakes := c.mistakes.delete term }, rest)
    | none => .ok (c, rest)

/-- The method `importParse`: the term, the definition and the mistakes of a line; a panic
when the line does not match (index 3 of a nil slice) or `Atoi` reports an error. -/
def importParse (c : Flashcards) (line : String) : Except Flashcards (String × String × Int) :=
  match findStringSubmatch line.data with
  | none => .error c
  | some (t, d, m) =>
    match atoi (String.mk m) with
    | none => .error c
    | some mistakes => .ok (String.mk t, String.mk d, mistakes)

/-- The body of the `for scanner.Scan()` loop of `Import`, over the lines of the file. -/
def importLoop : List String → Flashcards → Except Flashcards Flashcards
  | [], c => .ok c
  | line :: rest, c =>
    match importParse c line with
    | .error e => .error e
    | .ok (t, d, m) =>
      importLoop rest
        { term := c.term.set t d
          definition := c.definition.set d t
          mistakes := c.mistakes.set t m }

/-- What `getFile` delivers to `Import`: no such file (`notExist`); a panic before the file
is read, that is the end of the input while the file name is read or another error of
`os.Open` (`failed`); or the open file with the text in it, and whether reading it ends with
an error of the file instead of its end (`opened`). -/
inductive FileResult where
  | notExist
  | failed
  | opened (content : String) (readErr : Bool)

/-- The method `Import`: the lines come from the scanner, and an error the scanner ends
with is the panic of `errCheck(scanner.Err())` after the loop. -/
def Import (file : FileResult) (c : Flashcards) : Except Flashcards Flashcards :=
  match file with
  | .notExist => .ok c
  | .failed => .error c
  | .opened content readErr =>
    match importLoop (scanLoop readErr content.data []).1 c with
    | .error e => .error e
    | .ok c1 => if (scanLoop readErr content.data []).2 then .error c1 else .ok c1

/-- The line `Export` prints for a card with the format `("%s":"%s"):(%d)`, without the
final newline. -/
def exportLine (t d : String) (m : Int) : String :=
  String.mk (cardChars t.data d.data (fmtInt m))

/-- The lines `Export` prints: one for each card, in the iteration order of `Deck["term"]`. -/
def exportLines (c : Flashcards) : List String :=
  c.term.entries.map fun e => exportLine e.1 e.2 (c.mistakes.intAt e.1)

/-- The method `Export`, when the file opens and every write succeeds: the text it writes
from the start of the file, every line with its newline. It is the whole file when the file
is new or was not longer before (the file is opened without truncation). -/
def Export (c : Flashcards) : String := written (exportLines c)

/-- The method `getOrderedTerms`: the terms in the iteration order of `Deck["term"]`. -/
def getOrderedTerms (c : Flashcards) : List String := c.term.keys

/-- The library function `rand.Intn(n)`: a panic (`none`) when `n <= 0`, otherwise some
number of `[0, n)`, here the one the raw draw `r` of the generator falls on. -/
def Intn (n : Int) (r : Nat) : Option Int :=
  if n ≤ 0 then none else some ((r : Int) % n)

/-- The closure `getRandomNum` of `askEntry`. -/
def getRandomNum (min max : Int) (r : Nat) : Option Int :=
  match Intn (max - min + 1) r with
  | none => none
  | some x => some (x + min)

/-- The slice read `s[i]`: `none` is the index-out-of-range panic. -/
def sliceAt {α : Type} (s : List α) (i : Int) : Option α :=
  if i < 0 then none else s.get? i.toNat

/-- The method `askEntry`, with the raw random draw `r` and the answer read from the input. -/
def askEntry (orderedTerms : List String) (r : Nat) (inputs : List String) (c : Flashcards) :
    Run :=
  match getRandomNum 0 ((orderedTerms.length : Int) - 1) r with
  | none => .error c
  | some i =>
    match sliceAt orderedTerms i with
    | none => .error c
    | some picked =>
      let definition := c.term.strAt picked
      let term := c.definition.strAt definition
      match inputs with
      | [] => .error c
      | answer :: rest =>
        if answer = definition then .ok (c, rest)
        else
          .ok ({ c with mistakes := c.mistakes.set term (wrapInt (c.mistakes.intAt term + 1)) },
               rest)

/-- The loop `for i := 0; i < n; i++ { cards.askEntry(orderedTerms) }` of `Ask`, with `todo`
rounds left, the next one being round `i`; `rnd i` is the raw random draw of round `i`. -/
def askLoop (orderedTerms : List String) (rnd : Nat → Nat) :
    Nat → Nat → List String → Flashcards → Run
  | 0, _, inputs, c => .ok (c, inputs)
  | todo + 1, i, inputs, c =>
    match askEntry orderedTerms (rnd i) inputs c with
    | .error e => .error e
    | .ok (c1, rest) => askLoop orderedTerms rnd todo (i + 1) rest c1

/-- The method `Ask`. -/
def Ask (rnd : Nat → Nat) (inputs : List String) (c : Flashcards) : Run :=
  match inputs with
  | [] => .error c
  | x :: rest =>
    match atoi x with
    | none => .error c
    | some n => askLoop (getOrderedTerms c) rnd n.toNat 0 rest c

end Flashcards

/-- The helper struct `termMistakes`. -/
structure termMistakes where
  term : String
  mistakes : Int
  deriving DecidableEq

/-- The order `sort.SliceStable` is called with: `a` may stay before `b`. -/
def mistakesLE (a b : termMistakes) : Prop := a.mistakes ≤ b.mistakes

instance : DecidableRel mistakesLE :=
  fun a b => inferInstanceAs (Decidable (a.mistakes ≤ b.mistakes))

instance : IsTotal termMistakes mistakesLE := ⟨fun a b => Int.le_total a.mistakes b.mistakes⟩

instance : IsTrans termMistakes mistakesLE := ⟨fun _ _ _ h1 h2 => Int.le_trans h1 h2⟩

/-- What `HardestCard` prints: that no card has errors, or the hardest cards and their
number of errors. -/
inductive Hardest where
  | noErrors
  | cards (hardCards : List String) (maxM : Int)
  deriving DecidableEq

namespace Flashcards

/-- The method `createStatsSlice` for the statistic `"mistakes"`: one dummy element when
nothing is tracked, otherwise the entries in iteration order, stably sorted by ascending
mistakes (a stable sort has one result, the one insertion sort produces). -/
def createStatsSlice (c : Flashcards) : List termMistakes :=
  if c.mistakes.len = 0 then [⟨"", 0⟩]
  else (c.mistakes.entries.map fun e => termMistakes.mk e.1 e.2).insertionSort mistakesLE

/-- The loop of `findHardestCard` with `todo` rounds left. -/
def findHardestLoop (sS : List termMistakes) (maxM : Int) :
    Nat → Int → List String → Option (List String)
  | 0, _, hardCards => some hardCards
  | todo + 1, pos, hardCards =>
    match sliceAt sS (pos - 1) with
    | none => none
    | some e =>
      if e.mistakes ≠ maxM then some hardCards
      else findHardestLoop sS maxM todo (pos - 1) (hardCards ++ [e.term])

/-- The method `findHardestCard`; `none` is an index-out-of-range panic. -/
def findHardestCard (sS : List termMistakes) (maxM : Int) (pos : Int) : Option (List String) :=
  findHardestLoop sS maxM sS.length pos []

/-- The method `HardestCard`, returning what it prints. -/
def HardestCard (c : Flashcards) : Except Flashcards Hardest :=
  let sS := createStatsSlice c
  match sliceAt sS ((sS.length : Int) - 1) with
  | none => .error c
  | some last =>
    let maxM := last.mistakes
    if maxM > 0 then
      match findHardestCard sS maxM sS.length with
      | none => .error c
      | some hardCards => .ok (.cards hardCards maxM)
    else .ok .noErrors

theorem nodup_keys_zeroed (l : List (String × Int)) (h : (l.map Prod.fst).Nodup) :
    ((l.map fun e => (e.1, (0 : Int))).map Prod.fst).Nodup := by
  simpa [List.map_map, Function.comp_def] using h

/-- The method `ResetStats`. -/
def ResetStats (c : Flashcards) : Flashcards :=
  { c with
    mistakes := ⟨c.mistakes.entries.map fun e => (e.1, 0), nodup_keys_zeroed _ c.mistakes.nodup⟩ }

end Flashcards

/-- A deck from a list of cards by the assignments of `Import`, made from the last card of
the list to the first, so that the maps are visited in the order of the list. -/
def deckOf : List (String × String × Int) → Flashcards
  | [] => Flashcards.init
  | (t, d, m) :: rest =>
    { term := (deckOf rest).term.set t d
      definition := (deckOf rest).definition.set d t
      mistakes := (deckOf rest).mistakes.set t m }

/-- The calls of `addEntry` that `Add` makes for the input `term` followed by the input
`definition`, up to the first rejection: the state after them, and whether both were
accepted. -/
def addAttempt (term definition : String) (c : Flashcards) : Flashcards × Bool :=
  if (Flashcards.addEntry .term term c).2 = "" then ((Flashcards.addEntry .term term c).1, false)
  else if (Flashcards.addEntry .definition definition (Flashcards.addEntry .term term c).1).2 = ""
  then ((Flashcards.addEntry .definition definition (Flashcards.addEntry .term term c).1).1, false)
  else ((Flashcards.addEntry .definition definition (Flashcards.addEntry .term term c).1).1, true)

/-- The two directions of the deck are inverse to each other. -/
def MutualInverse (c : Flashcards) : Prop :=
  ∀ t d : String, c.term.lookup t = some d ↔ c.definition.lookup d = some t

/-! ## Notions used in the statements -/

/-- The terms with count `M`, last visited first: what `HardestCard` lists. -/
def hardestOf (c : Flashcards) (M : Int) : List String :=
  (c.mistakes.entries.filter fun e => decide (e.2 = M)).reverse.map Prod.fst

/-- The states at the prompt of `Action`: the state after `init`, and every state in which
an `Add`, `Remove`, `Import`, `Ask` or `ResetStats` that started in such a state ends
without a panic. -/
inductive Reachable : Flashcards → Prop
  | init : Reachable Flashcards.init
  | add (c c1 : Flashcards) (inputs rest : List String) :
      Reachable c → Flashcards.Add inputs c = .ok (c1, rest) → Reachable c1
  | remove (c c1 : Flashcards) (inputs rest : List String) :
      Reachable c → Flashcards.Remove inputs c = .ok (c1, rest) → Reachable c1
  | importFile (c c1 : Flashcards) (file : Flashcards.FileResult) :
      Reachable c → Flashcards.Import file c = .ok c1 → Reachable c1
  | ask (c c1 : Flashcards) (rnd : Nat → Nat) (inputs rest : List String) :
      Reachable c → Flashcards.Ask rnd inputs c = .ok (c1, rest) → Reachable c1
  | reset (c : Flashcards) : Reachable c → Reachable (Flashcards.ResetStats c)

/-- Every term of the deck has an entry in the mistakes. -/
def Tracked (c : Flashcards) : Prop :=
  ∀ t : String, c.term.lookup t ≠ none → c.mistakes.lookup t ≠ none

/-- The assignments `m[k] = v` for a list of pairs, first to last. -/
def GoMap.setAll {V : Type} : List (String × V) → GoMap V → GoMap V
  | [], m => m
  | (k, v) :: rest, m => GoMap.setAll rest (m.set k v)

/-- The assignments of `Import` for a list of cards, first to last. -/
def assignAll : List (String × String × Int) → Flashcards → Flashcards
  | [], c => c
  | (t, d, m) :: rest, c =>
    assignAll rest ⟨c.term.set t d, c.definition.set d t, c.mistakes.set t m⟩

/-! ## Facts about maps -/

namespace GoMap

variable {V : Type}

theorem lookupList_eraseKey (l : List (String × V)) (k k2 : String) :
    lookupList k2 (eraseKey k l) = if k2 = k then none else lookupList k2 l := by
  induction l with
  | nil => simp [lookupList, eraseKey]
  | cons e rest ih =>
    obtain ⟨a, v⟩ := e
    by_cases ha : a = k
    · subst ha
      by_cases h2 : k2 = a
      · subst h2
        simpa [eraseKey, lookupList] using ih
      · simp [eraseKey, lookupList, ih, h2]
    · by_cases h2 : k2 = k
      · subst h2
        have : ¬ k2 = a := fun h => ha h.symm
        simp [eraseKey, lookupList, ih, ha, this]
      · by_cases h3 : k2 = a
        · simp [eraseKey, lookupList, ih, ha, h2, h3]
        · simp [eraseKey, lookupList, ih, ha, h2, h3]

theorem lookup_empty (k : String) : (empty : GoMap V).lookup k = none := rfl

theorem lookup_set (m : GoMap V) (k : String) (v : V) (k2 : String) :
    (m.set k v).lookup k2 = if k2 = k then some v else m.lookup k2 := by
  unfold lookup set
  by_cases h : k2 = k
  · simp [lookupList, h]
  · simp [lookupList, h, lookupList_eraseKey]

theorem lookup_set_self (m : GoMap V) (k : String) (v : V) : (m.set k v).lookup k = some v := by
  simp [lookup_set]

theorem lookup_set_ne (m : GoMap V) (k : String) (v : V) (k2 : String) (h : k2 ≠ k) :
    (m.set k v).lookup k2 = m.lookup k2 := by
  simp [lookup_set, h]

theorem lookup_delete (m : GoMap V) (k k2 : String) :
    (m.delete k).lookup k2 = if k2 = k then none else m.lookup k2 := by
  unfold lookup delete
  exact lookupList_eraseKey _ _ _

theorem lookup_delete_self (m : GoMap V) (k : String) : (m.delete k).lookup k = none := by
  simp [lookup_delete]

theorem lookupList_eq_some_iff (l : List (String × V)) (h : (l.map Prod.fst).Nodup)
    (k : String) (v : V) : lookupList k l = some v ↔ (k, v) ∈ l := by
  induction l with
  | nil => simp [lookupList]
  | cons e rest ih =>
    obtain ⟨a, w⟩ := e
    simp only [List.map_cons, List.nodup_cons] at h
    by_cases hk : k = a
    · subst hk
      simp only [lookupList, if_true, List.mem_cons, Prod.mk.injEq, true_and, Option.some.injEq]
      constructor
      · intro hw; exact Or.inl hw.symm
      · rintro (hw | hmem)
        · exact hw.symm
        · exact absurd (List.mem_map_of_mem Prod.fst hmem) h.1
    · simp [lookupList, hk, ih h.2]

theorem lookup_eq_some_iff (m : GoMap V) (k : String) (v : V) :
    m.lookup k = some v ↔ (k, v) ∈ m.entries :=
  lookupList_eq_some_iff _ m.nodup _ _

theorem lookupList_eq_none_iff (l : List (String × V)) (k : String) :
    lookupList k l = none ↔ k ∉ l.map Prod.fst := by
  induction l with
  | nil => simp [lookupList]
  | cons e rest ih =>
    obtain ⟨a, w⟩ := e
    by_cases hk : k = a
    · simp [lookupList, hk]
    · simp [lookupList, hk, ih]

theorem lookup_eq_none_iff (m : GoMap V) (k : String) : m.lookup k = none ↔ k ∉ m.keys :=
  lookupList_eq_none_iff _ _

theorem contains_iff (m : GoMap V) (k : String) : m.contains k = true ↔ k ∈ m.keys := by
  unfold contains
  rw [Option.isSome_iff_ne_none, Ne, lookup_eq_none_iff, not_not]

end GoMap

/-! ## Adding and removing a card -/

theorem addEntry_accept (g : DeckGroup) (e : String) (c : Flashcards) (he : e ≠ "")
    (hn : (c.deck g).lookup e = none) :
    Flashcards.addEntry g e c = (c.setDeck g e "", e) := by
  simp [Flashcards.addEntry, he, GoMap.contains, hn]

theorem addEntry_reject (g : DeckGroup) (e : String) (c : Flashcards)
    (h : (c.deck g).contains e = true) : Flashcards.addEntry g e c = (c, "") := by
  unfold Flashcards.addEntry
  by_cases he : e = ""
  · simp [he]
  · simp [he, h]

theorem addLoop_accept (g : DeckGroup) (e : String) (rest : List String) (c : Flashcards)
    (he : e ≠ "") (hn : (c.deck g).lookup e = none) :
    Flashcards.addLoop g (e :: rest) c = .ok (c.setDeck g e "", e, rest) := by
  simp [Flashcards.addLoop, addEntry_accept g e c he hn, he]

theorem addLoop_reject (g : DeckGroup) (e : String) (rest : List String) (c : Flashcards)
    (h : (c.deck g).contains e = true) :
    Flashcards.addLoop g (e :: rest) c = Flashcards.addLoop g rest c := by
  simp [Flashcards.addLoop, addEntry_reject g e c h]

/-- C2: when `Add` reads a new non-empty term `t` and a new non-empty definition `d`, it
ends with the term map sending `t` to `d` and the definition map sending `d` to `t`; a
`Remove` of `t` in that state ends with neither the entry of `t` nor the entry of `d`. -/
theorem add_stores_both_remove_drops_both (c : Flashcards) (t d : String)
    (rest rest2 : List String) (ht : t ≠ "") (htn : c.term.lookup t = none)
    (hd : d ≠ "") (hdn : c.definition.lookup d = none) :
    ∃ c1 c2, Flashcards.Add (t :: d :: rest) c = .ok (c1, rest) ∧
      c1.term.lookup t = some d ∧ c1.definition.lookup d = some t ∧
      Flashcards.Remove (t :: rest2) c1 = .ok (c2, rest2) ∧
      c2.term.lookup t = none ∧ c2.definition.lookup d = none := by
  have h1 := addLoop_accept .term t (d :: rest) c ht htn
  have h2 := addLoop_accept .definition d rest (c.setDeck .term t "") hd hdn
  refine ⟨Flashcards.commit ((c.setDeck .term t "").setDeck .definition d "") t d,
    ⟨(Flashcards.commit ((c.setDeck .term t "").setDeck .definition d "") t d).term.delete t,
      (Flashcards.commit ((c.setDeck .term t "").setDeck .definition d "") t d).definition.delete d,
      (Flashcards.commit ((c.setDeck .term t "").setDeck .definition d "") t d).mistakes.delete t⟩,
    ?_, ?_, ?_, ?_, ?_, ?_⟩
  · simp only [Flashcards.Add, h1, h2]
  · simp [Flashcards.commit, GoMap.lookup_set]
  · simp [Flashcards.commit, GoMap.lookup_set]
  · simp only [Flashcards.Remove, Flashcards.commit, GoMap.lookup_set_self]
  · simp [GoMap.lookup_delete]
  · simp [GoMap.lookup_delete]

/-- Instance of C2: the card `cat`/`animal` added to the empty deck and removed again. -/
theorem add_stores_both_remove_drops_both_witness :
    ∃ c1 c2, Flashcards.Add ["cat", "animal", "x"] Flashcards.init = .ok (c1, ["x"]) ∧
      c1.term.lookup "cat" = some "animal" ∧ c1.definition.lookup "animal" = some "cat" ∧
      Flashcards.Remove ["cat"] c1 = .ok (c2, []) ∧
      c2.term.lookup "cat" = none ∧ c2.definition.lookup "animal" = none :=
  add_stores_both_remove_drops_both Flashcards.init "cat" "animal" ["x"] [] (by decide) rfl
    (by decide) rfl

/-! ## Duplicates -/

/-- C3 as stated fails: in the deck with the single card `a`/`x`, the attempt to add the new
term `b` with the existing definition `x` is rejected, but the term map has changed: it
holds `b` with the placeholder definition. That is the state in which `Add` asks for
another definition, and in which it panics when the input ends there. -/
theorem duplicate_definition_keeps_placeholder :
    (∃ s, Flashcards.Add ["b", "x"] (deckOf [("a", "x", 0)]) = .error s ∧
        s.term.lookup "b" = some "" ∧ (deckOf [("a", "x", 0)]).term.lookup "b" = none) ∧
      ¬ ∀ (c : Flashcards) (t d : String),
        (c.term.contains t = true ∨ c.definition.contains d = true) →
          (addAttempt t d c).2 = false ∧
            ∀ k : String, (addAttempt t d c).1.term.lookup k = c.term.lookup k ∧
              (addAttempt t d c).1.definition.lookup k = c.definition.lookup k := by
  refine ⟨⟨(deckOf [("a", "x", 0)]).setDeck .term "b" "", by decide, by decide, by decide⟩, ?_⟩
  intro h
  have h1 := ((h (deckOf [("a", "x", 0)]) "b" "x" (Or.inr (by decide))).2 "b").1
  revert h1
  decide

/-- C3, amended: an attempt whose term or definition already exists is rejected, and the
definition map and the mistakes are unchanged. When the term exists (or is empty) the whole
state is unchanged; when the term is new and not empty, so that only the definition is the
duplicate, the one change is the term stored with the placeholder definition `""`. -/
theorem duplicate_rejected (c : Flashcards) (t d : String)
    (h : c.term.contains t = true ∨ c.definition.contains d = true) :
    (addAttempt t d c).2 = false ∧
      (addAttempt t d c).1.definition = c.definition ∧
      (addAttempt t d c).1.mistakes = c.mistakes ∧
      ((c.term.contains t = true ∨ t = "") → (addAttempt t d c).1 = c) ∧
      (c.term.contains t = false → t ≠ "" → (addAttempt t d c).1.term = c.term.set t "") := by
  by_cases ht : c.term.contains t = true
  · have h1 : Flashcards.addEntry .term t c = (c, "") := addEntry_reject .term t c ht
    have hA : addAttempt t d c = (c, false) := by
      unfold addAttempt
      rw [h1]
      simp
    rw [hA]
    simp [ht]
  · by_cases he : t = ""
    · have h1 : Flashcards.addEntry .term t c = (c, "") := by simp [Flashcards.addEntry, he]
      have hA : addAttempt t d c = (c, false) := by
        unfold addAttempt
        rw [h1]
        simp
      rw [hA]
      simp [he]
    · have hd : c.definition.contains d = true := h.resolve_left ht
      have hn : c.term.lookup t = none := by
        simpa [GoMap.contains] using ht
      have h1 : Flashcards.addEntry .term t c = (c.setDeck .term t "", t) :=
        addEntry_accept .term t c he hn
      have h2 : Flashcards.addEntry .definition d (c.setDeck .term t "") =
          (c.setDeck .term t "", "") :=
        addEntry_reject .definition d _ hd
      have hA : addAttempt t d c = (c.setDeck .term t "", false) := by
        unfold addAttempt
        rw [h1]
        simp only [he, if_false]
        rw [h2]
        simp
      rw [hA]
      simp [he, ht, Flashcards.setDeck]

/-- Instance of the amended C3: the card `a`/`x` is in the deck, the attempt is `b`/`x`. -/
theorem duplicate_rejected_witness :
    (addAttempt "b" "x" (deckOf [("a", "x", 0)])).2 = false ∧
      (addAttempt "b" "x" (deckOf [("a", "x", 0)])).1.definition =
        (deckOf [("a", "x", 0)]).definition ∧
      (addAttempt "b" "x" (deckOf [("a", "x", 0)])).1.mistakes =
        (deckOf [("a", "x", 0)]).mistakes ∧
      (((deckOf [("a", "x", 0)]).term.contains "b" = true ∨ "b" = "") →
        (addAttempt "b" "x" (deckOf [("a", "x", 0)])).1 = deckOf [("a", "x", 0)]) ∧
      ((deckOf [("a", "x", 0)]).term.contains "b" = false → "b" ≠ "" →
        (addAttempt "b" "x" (deckOf [("a", "x", 0)])).1.term =
          (deckOf [("a", "x", 0)]).term.set "b" "") :=
  duplicate_rejected (deckOf [("a", "x", 0)]) "b" "x" (Or.inr (by decide))

/-! ## The inverse directions and `Import` -/

/-- C1 fails on the code: importing `a`/`x` and then `a`/`y` into the empty deck succeeds,
so the state is reachable, and it leaves the definition `x` pointing at `a`, whose definition
is `y`. -/
theorem import_overwrite_keeps_stale_definition :
    ∃ c, Flashcards.Import (.opened (written ["(\"a\":\"x\"):(0)", "(\"a\":\"y\"):(0)"]) false)
        Flashcards.init = .ok c ∧ Reachable c ∧
      c.definition.lookup "x" = some "a" ∧ c.term.lookup "a" = some "y" ∧
      c.definition.strAt "x" = "a" ∧ c.term.strAt "a" = "y" ∧ ¬ MutualInverse c := by
  have h : Flashcards.Import (.opened (written ["(\"a\":\"x\"):(0)", "(\"a\":\"y\"):(0)"]) false)
      Flashcards.init = .ok (deckOf [("a", "y", 0), ("a", "x", 0)]) := by decide
  refine ⟨deckOf [("a", "y", 0), ("a", "x", 0)], h, Reachable.importFile _ _ _ Reachable.init h,
    by decide, by decide, by decide, by decide, ?_⟩
  intro hinv
  have h1 := (hinv "a" "x").2 (by decide)
  revert h1
  decide

/-! ## The pattern and the numbers: facts -/

theorem stripLit_append (p s : List Char) : stripLit p (p ++ s) = some s := by
  induction p with
  | nil => cases s <;> rfl
  | cons a p ih => simp [stripLit, ih]

theorem span_run (cls : Char → Bool) (t : List Char) (x : Char) (rest : List Char)
    (ht : ∀ ch ∈ t, cls ch = true) (hx : cls x = false) :
    (t ++ x :: rest).span cls = (t, x :: rest) := by
  rw [List.span_eq_take_drop, List.takeWhile_append_of_pos ht, List.dropWhile_append_of_pos ht]
  simp [List.takeWhile_cons, List.dropWhile_cons, hx]

theorem spanPlus_run (cls : Char → Bool) (t : List Char) (x : Char) (rest : List Char)
    (hne : t ≠ []) (ht : ∀ ch ∈ t, cls ch = true) (hx : cls x = false) :
    spanPlus cls (t ++ x :: rest) = some (t, x :: rest) := by
  unfold spanPlus
  rw [span_run cls t x rest ht hx]
  simp [hne]

theorem findStringSubmatch_card (T D N : List Char)
    (hT : T ≠ []) (hTq : ∀ ch ∈ T, ch ≠ '"') (hD : D ≠ []) (hDq : ∀ ch ∈ D, ch ≠ '"')
    (hN : N ≠ []) (hNd : ∀ ch ∈ N, ch.isDigit = true) :
    findStringSubmatch (cardChars T D N) = some (T, D, N) := by
  have e1 : cardChars T D N =
      ['(', '"'] ++ (T ++ '"' :: ([':', '"'] ++ (D ++ '"' :: ([')', ':', '('] ++ (N ++ [')']))))) := by
    simp [cardChars]
  have hTc : ∀ ch ∈ T, notQuote ch = true := fun ch h => by simp [notQuote, hTq ch h]
  have hDc : ∀ ch ∈ D, notQuote ch = true := fun ch h => by simp [notQuote, hDq ch h]
  have hq : notQuote '"' = false := by decide
  have hp : isDigitCls ')' = false := by decide
  have s1 := spanPlus_run notQuote T '"' ([':', '"'] ++ (D ++ '"' :: ([')', ':', '('] ++ (N ++ [')']))))
    hT hTc hq
  have s2 := spanPlus_run notQuote D '"' ([')', ':', '('] ++ (N ++ [')'])) hD hDc hq
  have s3 := spanPlus_run isDigitCls N ')' [] hN hNd hp
  have l2 : ∀ s : List Char, stripLit ['"', ':', '"'] ('"' :: ([':', '"'] ++ s)) = some s :=
    fun s => stripLit_append ['"', ':', '"'] s
  have l3 : ∀ s : List Char, stripLit ['"', ')', ':', '('] ('"' :: ([')', ':', '('] ++ s)) = some s :=
    fun s => stripLit_append ['"', ')', ':', '('] s
  rw [e1]
  unfold findStringSubmatch
  rw [stripLit_append]
  simp only [s1, l2, s2, l3, s3, if_true]

theorem stripLit_some (p s r : List Char) (h : stripLit p s = some r) : s = p ++ r := by
  induction p generalizing s with
  | nil =>
    cases s <;> simp [stripLit] at h <;> simp [h]
  | cons a p ih =>
    cases s with
    | nil => simp [stripLit] at h
    | cons b s =>
      by_cases hab : a = b
      · subst hab
        simp only [stripLit, if_true] at h
        simp [ih s h]
      · simp [stripLit, hab] at h

theorem spanPlus_some (cls : Char → Bool) (s a b : List Char)
    (h : spanPlus cls s = some (a, b)) :
    s = a ++ b ∧ a ≠ [] ∧ ∀ ch ∈ a, cls ch = true := by
  unfold spanPlus at h
  by_cases he : (s.span cls).1 = []
  · rw [if_pos he] at h
    cases h
  · simp only [he, if_false, Option.some.injEq] at h
    rw [List.span_eq_take_drop] at h he
    simp only [Prod.mk.injEq] at h
    obtain ⟨h1, h2⟩ := h
    subst h1 h2
    exact ⟨(List.takeWhile_append_dropWhile cls s).symm, he, fun ch hch => List.mem_takeWhile_imp hch⟩

/-- The matcher accepts only lines of the shape of the pattern: two non-empty quote-free
groups and a non-empty group of digits between the literal pieces. -/
theorem findStringSubmatch_sound (line T D N : List Char)
    (h : findStringSubmatch line = some (T, D, N)) :
    line = cardChars T D N ∧ T ≠ [] ∧ (∀ ch ∈ T, ch ≠ '"') ∧ D ≠ [] ∧ (∀ ch ∈ D, ch ≠ '"') ∧
      N ≠ [] ∧ ∀ ch ∈ N, ch.isDigit = true := by
  unfold findStringSubmatch at h
  cases h1 : stripLit ['(', '"'] line with
  | none => simp [h1] at h
  | some s1 =>
    rw [h1] at h
    simp only at h
    cases h2 : spanPlus notQuote s1 with
    | none => simp [h2] at h
    | some r2 =>
      obtain ⟨t, s2⟩ := r2
      rw [h2] at h
      simp only at h
      cases h3 : stripLit ['"', ':', '"'] s2 with
      | none => simp [h3] at h
      | some s3 =>
        rw [h3] at h
        simp only at h
        cases h4 : spanPlus notQuote s3 with
        | none => simp [h4] at h
        | some r4 =>
          obtain ⟨d, s4⟩ := r4
          rw [h4] at h
          simp only at h
          cases h5 : stripLit ['"', ')', ':', '('] s4 with
          | none => simp [h5] at h
          | some s5 =>
            rw [h5] at h
            simp only at h
            cases h6 : spanPlus isDigitCls s5 with
            | none => simp [h6] at h
            | some r6 =>
              obtain ⟨m, s6⟩ := r6
              rw [h6] at h
              simp only at h
              by_cases h7 : s6 = [')']
              · simp only [h7, if_true, Option.some.injEq, Prod.mk.injEq] at h
                obtain ⟨rfl, rfl, rfl⟩ := h
                have e1 := stripLit_some _ _ _ h1
                obtain ⟨e2, n2, q2⟩ := spanPlus_some _ _ _ _ h2
                have e3 := stripLit_some _ _ _ h3
                obtain ⟨e4, n4, q4⟩ := spanPlus_some _ _ _ _ h4
                have e5 := stripLit_some _ _ _ h5
                obtain ⟨e6, n6, q6⟩ := spanPlus_some _ _ _ _ h6
                refine ⟨?_, n2, fun ch hch => by simpa [notQuote] using q2 ch hch, n4,
                  fun ch hch => by simpa [notQuote] using q4 ch hch, n6, q6⟩
                rw [e1, e2, e3, e4, e5, e6, h7]
                simp [cardChars]
              · simp [h7] at h

theorem parseDigits_digits (N : List Char) (acc : Nat) (h : ∀ ch ∈ N, ch.isDigit = true) :
    parseDigits N acc = some (N.foldl (fun a ch => a * 10 + (ch.toNat - 48)) acc) := by
  induction N generalizing acc with
  | nil => rfl
  | cons ch rest ih =>
    have h1 : ch.isDigit = true := h ch (List.mem_cons_self _ _)
    simp only [parseDigits, h1, if_true, List.foldl_cons]
    exact ih _ (fun x hx => h x (List.mem_cons_of_mem _ hx))

theorem digit_not_sign (ch : Char) (h : ch.isDigit = true) : ch ≠ '-' ∧ ch ≠ '+' := by
  constructor
  · rintro rfl
    revert h
    decide
  · rintro rfl
    revert h
    decide

theorem atoi_digits (N : List Char) (hN : N ≠ []) (h : ∀ ch ∈ N, ch.isDigit = true) :
    atoi (String.mk N) =
      if maxInt < (decimalValue N : Int) then none else some (decimalValue N : Int) := by
  cases N with
  | nil => exact absurd rfl hN
  | cons ch rest =>
    have h1 := digit_not_sign ch (h ch (List.mem_cons_self _ _))
    have h2 := parseDigits_digits (ch :: rest) 0 h
    unfold atoi
    simp only [h1.1, h1.2, if_false]
    rw [h2]
    simp [decimalValue]

theorem digitChar_isDigit (d : Nat) (h : d < 10) : (digitChar d).isDigit = true := by
  interval_cases d <;> decide

theorem digitChar_val (d : Nat) (h : d < 10) : (digitChar d).toNat - 48 = d := by
  interval_cases d <;> decide

theorem fmtNatAux_eq_digits (fuel : Nat) :
    ∀ (n : Nat) (acc : List Char), 0 < n → n < fuel →
      fmtNatAux fuel n acc = (Nat.digits 10 n).reverse.map digitChar ++ acc := by
  induction fuel with
  | zero => intro n acc _ h; omega
  | succ k ih =>
    intro n acc h0 hlt
    unfold fmtNatAux
    by_cases h10 : n < 10
    · simp [h10, Nat.digits_of_lt 10 n (by omega) h10]
    · have hd : 0 < n / 10 := Nat.div_pos (by omega) (by omega)
      have hl : n / 10 < k := by
        have := Nat.div_lt_self h0 (by omega : 1 < 10)
        omega
      simp only [h10, if_false]
      rw [ih (n / 10) _ hd hl, Nat.digits_def' (by omega : 1 < 10) h0]
      simp

theorem fmtNat_eq_digits (n : Nat) :
    fmtNat n = if n = 0 then [digitChar 0] else (Nat.digits 10 n).reverse.map digitChar := by
  by_cases h : n = 0
  · subst h
    rfl
  · unfold fmtNat
    rw [fmtNatAux_eq_digits (n + 1) n [] (by omega) (by omega)]
    simp [h]

theorem fmtNat_ne_nil (n : Nat) : fmtNat n ≠ [] := by
  rw [fmtNat_eq_digits]
  by_cases h : n = 0
  · simp [h]
  · simp [h, Nat.digits_ne_nil_iff_ne_zero]

theorem fmtNat_digits (n : Nat) : ∀ ch ∈ fmtNat n, ch.isDigit = true := by
  intro ch hch
  rw [fmtNat_eq_digits] at hch
  by_cases h : n = 0
  · simp [h] at hch
    subst hch
    decide
  · simp only [h, if_false, List.mem_map, List.mem_reverse] at hch
    obtain ⟨d, hd, rfl⟩ := hch
    exact digitChar_isDigit d (Nat.digits_lt_base (by norm_num) hd)

theorem foldl_digitChar (ds : List Nat) (h : ∀ d ∈ ds, d < 10) :
    (ds.reverse.map digitChar).foldl (fun a ch => a * 10 + (ch.toNat - 48)) 0 =
      Nat.ofDigits 10 ds := by
  induction ds with
  | nil => rfl
  | cons d rest ih =>
    have hd : d < 10 := h d (List.mem_cons_self _ _)
    simp only [List.reverse_cons, List.map_append, List.map_cons, List.map_nil,
      List.foldl_append, List.foldl_cons, List.foldl_nil, Nat.ofDigits_cons]
    rw [ih (fun x hx => h x (List.mem_cons_of_mem _ hx)), digitChar_val d hd]
    ring

theorem decimalValue_fmtNat (n : Nat) : decimalValue (fmtNat n) = n := by
  rw [fmtNat_eq_digits]
  unfold decimalValue
  by_cases h : n = 0
  · subst h
    decide
  · simp only [h, if_false]
    rw [foldl_digitChar _ (fun d hd => Nat.digits_lt_base (by norm_num) hd), Nat.ofDigits_digits]

theorem fmtInt_nonneg (m : Int) (h : 0 ≤ m) : fmtInt m = fmtNat m.toNat := by
  simp [fmtInt, not_lt.2 h]

theorem atoi_fmtInt (m : Int) (h0 : 0 ≤ m) (h1 : m ≤ maxInt) :
    atoi (String.mk (fmtInt m)) = some m := by
  rw [fmtInt_nonneg m h0, atoi_digits _ (fmtNat_ne_nil _) (fmtNat_digits _), decimalValue_fmtNat]
  have : ((m.toNat : Nat) : Int) = m := Int.toNat_of_nonneg h0
  rw [this]
  simp [not_lt.2 h1]

/-! ## The scanner: facts -/

theorem byteLen_append (a b : List Char) : byteLen (a ++ b) = byteLen a + byteLen b := by
  induction a with
  | nil => simp [byteLen]
  | cons ch rest ih => simp [byteLen, ih, Nat.add_assoc]

theorem byteLen_replicate (n : Nat) (ch : Char) :
    byteLen (List.replicate n ch) = n * ch.utf8Size := by
  induction n with
  | zero => simp [byteLen]
  | succ k ih => simp [List.replicate_succ, byteLen, ih, Nat.succ_mul, Nat.add_comm]

theorem scanLoop_line (readErr : Bool) (l rest : List Char) (hnl : '\n' ∉ l) :
    ∀ cur : List Char, scanLoop readErr (l ++ '\n' :: rest) cur =
      if maxScanTokenSize ≤ byteLen (cur ++ l) then ([], true)
      else (String.mk (dropCR (cur ++ l)) :: (scanLoop readErr rest []).1,
        (scanLoop readErr rest []).2) := by
  induction l with
  | nil => intro cur; simp [scanLoop]
  | cons ch l ih =>
    intro cur
    have hch : ch ≠ '\n' := fun h => hnl (h ▸ List.mem_cons_self _ _)
    have hl : '\n' ∉ l := fun h => hnl (List.mem_cons_of_mem _ h)
    have e1 : (ch :: l) ++ '\n' :: rest = ch :: (l ++ '\n' :: rest) := rfl
    rw [e1, scanLoop]
    simp only [hch, if_false]
    rw [ih hl (cur ++ [ch])]
    simp

theorem scanLoop_last (l : List Char) (hnl : '\n' ∉ l) :
    ∀ cur : List Char, scanLoop false l cur = scanLoop false [] (cur ++ l) := by
  induction l with
  | nil => intro cur; rw [List.append_nil]
  | cons ch l ih =>
    intro cur
    have hch : ch ≠ '\n' := fun h => hnl (h ▸ List.mem_cons_self _ _)
    have hl : '\n' ∉ l := fun h => hnl (List.mem_cons_of_mem _ h)
    have e : scanLoop false (ch :: l) cur = scanLoop false l (cur ++ [ch]) := by
      simp [scanLoop, hch]
    rw [e, ih hl (cur ++ [ch])]
    simp

theorem scanLoop_written (lines : List String)
    (h : ∀ l ∈ lines, '\n' ∉ l.data ∧ dropCR l.data = l.data ∧
      byteLen l.data < maxScanTokenSize) :
    scanLoop false (written lines).data [] = (lines, false) := by
  induction lines with
  | nil => simp [written, scanLoop]
  | cons l rest ih =>
    obtain ⟨h1, h2, h3⟩ := h l (List.mem_cons_self _ _)
    have hr := ih (fun x hx => h x (List.mem_cons_of_mem _ hx))
    have hw : (written (l :: rest)).data = l.data ++ '\n' :: (written rest).data := rfl
    rw [hw, scanLoop_line false l.data _ h1 [], hr]
    simp only [List.nil_append, h2, not_le.2 h3, if_false]

theorem dropCR_cardChars (T D N : List Char) : dropCR (cardChars T D N) = cardChars T D N := by
  have h : (cardChars T D N).getLast? = some ')' := by
    unfold cardChars
    rw [List.getLast?_append]
    rfl
  unfold dropCR
  rw [h]
  simp

theorem newline_not_digit (N : List Char) (h : ∀ ch ∈ N, ch.isDigit = true) : '\n' ∉ N := by
  intro hm
  have := h _ hm
  revert this
  decide

theorem newline_not_mem_cardChars (T D N : List Char) (hT : '\n' ∉ T) (hD : '\n' ∉ D)
    (hN : '\n' ∉ N) : '\n' ∉ cardChars T D N := by
  intro h
  simp only [cardChars, List.mem_append, List.mem_cons, List.mem_singleton, List.not_mem_nil,
    or_false] at h
  rcases h with ((((((h | h) | h) | (h | h | h)) | h) | (h | h | h | h)) | h) | h
  all_goals first
    | exact hT h
    | exact hD h
    | exact hN h
    | (revert h; decide)

/-! ## Importing a line -/

theorem importParse_card (c : Flashcards) (T D N : List Char)
    (hT : T ≠ []) (hTq : ∀ ch ∈ T, ch ≠ '"') (hD : D ≠ []) (hDq : ∀ ch ∈ D, ch ≠ '"')
    (hN : N ≠ []) (hNd : ∀ ch ∈ N, ch.isDigit = true)
    (hfit : (decimalValue N : Int) ≤ maxInt) :
    Flashcards.importParse c (String.mk (cardChars T D N)) =
      .ok (String.mk T, String.mk D, (decimalValue N : Int)) := by
  unfold Flashcards.importParse
  simp only [findStringSubmatch_card T D N hT hTq hD hDq hN hNd, atoi_digits N hN hNd,
    not_lt.2 hfit, if_false]

theorem Import_written_line (c : Flashcards) (line : String) (hnl : '\n' ∉ line.data)
    (hcr : dropCR line.data = line.data) (hlen : byteLen line.data < maxScanTokenSize)
    (hne : line.data ≠ []) :
    Flashcards.Import (.opened (written [line]) false) c =
        Flashcards.importLoop [line] c ∧
      Flashcards.Import (.opened line false) c = Flashcards.importLoop [line] c := by
  have h1 : scanLoop false (written [line]).data [] = ([line], false) :=
    scanLoop_written [line] (fun l hl => by
      rw [List.mem_singleton.1 hl]
      exact ⟨hnl, hcr, hlen⟩)
  have h2 : scanLoop false line.data [] = ([line], false) := by
    rw [scanLoop_last line.data hnl []]
    simp only [List.nil_append, scanLoop, hne, not_le.2 hlen, hcr, if_false,
      Bool.false_eq_true]
  constructor
  · simp only [Flashcards.Import, h1]
    cases Flashcards.importLoop [line] c <;> simp
  · simp only [Flashcards.Import, h2]
    cases Flashcards.importLoop [line] c <;> simp

theorem Import_too_long (c : Flashcards) (l : List Char) (rest : List String)
    (hnl : '\n' ∉ l) (hlen : maxScanTokenSize ≤ byteLen l) :
    Flashcards.Import (.opened (written (String.mk l :: rest)) false) c = .error c := by
  have hw : (written (String.mk l :: rest)).data = l ++ '\n' :: (written rest).data := rfl
  have h1 : scanLoop false (written (String.mk l :: rest)).data [] = ([], true) := by
    rw [hw, scanLoop_line false l _ hnl []]
    simp [hlen]
  simp only [Flashcards.Import, h1, Flashcards.importLoop, if_true]

/-- C5 as stated fails: the line `("a":"b"):(99999999999999999999)` has the form of a card,
but its number does not fit `int`, `Atoi` reports an error and the import panics. A bound on
the number alone does not repair the claim: the line with a term of 70000 letters `a`, the
definition `b` and the number `0` has the form of a card too, the scanner ends on it with
`ErrTooLong` and the import panics. -/
theorem import_count_out_of_range :
    (¬ ∀ (c : Flashcards) (T D N : List Char),
        T ≠ [] → (∀ ch ∈ T, ch ≠ '"') → '\n' ∉ T → D ≠ [] → (∀ ch ∈ D, ch ≠ '"') → '\n' ∉ D →
        N ≠ [] → (∀ ch ∈ N, ch.isDigit = true) →
        ∃ c1, Flashcards.Import (.opened (written [String.mk (cardChars T D N)]) false) c
            = .ok c1 ∧
          c1.term.lookup (String.mk T) = some (String.mk D) ∧
          c1.definition.lookup (String.mk D) = some (String.mk T) ∧
          c1.mistakes.lookup (String.mk T) = some (decimalValue N : Int)) ∧
      Flashcards.Import
          (.opened (written
            [String.mk (cardChars "a".data "b".data "99999999999999999999".data)]) false)
          Flashcards.init = .error Flashcards.init ∧
      Flashcards.Import
          (.opened (written
            [String.mk (cardChars (List.replicate 70000 'a') "b".data "0".data)]) false)
          Flashcards.init = .error Flashcards.init := by
  have h2 : Flashcards.Import
      (.opened (written
        [String.mk (cardChars "a".data "b".data "99999999999999999999".data)]) false)
      Flashcards.init = .error Flashcards.init := by decide
  refine ⟨?_, h2, ?_⟩
  · intro h
    obtain ⟨c1, h1, _⟩ := h Flashcards.init "a".data "b".data "99999999999999999999".data
      (by decide) (by decide) (by decide) (by decide) (by decide) (by decide) (by decide)
      (by decide)
    rw [h2] at h1
    cases h1
  · apply Import_too_long
    · apply newline_not_mem_cardChars
      · intro hm
        have := List.eq_of_mem_replicate hm
        revert this
        decide
      · decide
      · decide
    · have hb : byteLen (List.replicate 70000 'a') = 70000 := by
        rw [byteLen_replicate]
        rfl
      simp only [cardChars, byteLen_append, hb, maxScanTokenSize]
      omega

/-- C5, amended: for every state and every line `("TERM":"DEFINITION"):(DIGITS)` of fewer
than 65536 bytes, with non-empty `TERM` and `DEFINITION` free of quotes and newlines and one
or more decimal `DIGITS` whose value is at most the largest `int`, the import of the file
that holds this line, with or without a final newline, succeeds, and afterwards `TERM` maps
to `DEFINITION`, `DEFINITION` maps to `TERM` and the mistakes of `TERM` are the value of
`DIGITS`, whatever was stored before. -/
theorem import_line_overwrites (c : Flashcards) (T D N : List Char)
    (hT : T ≠ []) (hTq : ∀ ch ∈ T, ch ≠ '"') (hTn : '\n' ∉ T)
    (hD : D ≠ []) (hDq : ∀ ch ∈ D, ch ≠ '"') (hDn : '\n' ∉ D)
    (hN : N ≠ []) (hNd : ∀ ch ∈ N, ch.isDigit = true)
    (hfit : (decimalValue N : Int) ≤ maxInt)
    (hlen : byteLen (cardChars T D N) < maxScanTokenSize) :
    ∃ c1, Flashcards.Import (.opened (written [String.mk (cardChars T D N)]) false) c = .ok c1 ∧
      Flashcards.Import (.opened (String.mk (cardChars T D N)) false) c = .ok c1 ∧
      c1.term.lookup (String.mk T) = some (String.mk D) ∧
      c1.definition.lookup (String.mk D) = some (String.mk T) ∧
      c1.mistakes.lookup (String.mk T) = some (decimalValue N : Int) := by
  have hne : (String.mk (cardChars T D N)).data ≠ [] := by
    simp [cardChars]
  obtain ⟨e1, e2⟩ := Import_written_line c (String.mk (cardChars T D N))
    (newline_not_mem_cardChars T D N hTn hDn (newline_not_digit N hNd))
    (dropCR_cardChars T D N) hlen hne
  have hl : Flashcards.importLoop [String.mk (cardChars T D N)] c =
      .ok ⟨c.term.set (String.mk T) (String.mk D), c.definition.set (String.mk D) (String.mk T),
        c.mistakes.set (String.mk T) (decimalValue N : Int)⟩ := by
    simp only [Flashcards.importLoop, importParse_card c T D N hT hTq hD hDq hN hNd hfit]
  refine ⟨⟨c.term.set (String.mk T) (String.mk D), c.definition.set (String.mk D) (String.mk T),
    c.mistakes.set (String.mk T) (decimalValue N : Int)⟩, ?_, ?_, ?_, ?_, ?_⟩
  · rw [e1, hl]
  · rw [e2, hl]
  · exact GoMap.lookup_set_self _ _ _
  · exact GoMap.lookup_set_self _ _ _
  · exact GoMap.lookup_set_self _ _ _

/-- Instance of the amended C5: the card `a`/`x` with 3 mistakes is in the deck and the line
`("a":"y"):(7)` is imported. -/
theorem import_line_overwrites_witness :
    ∃ c1, Flashcards.Import
        (.opened (written [String.mk (cardChars "a".data "y".data "7".data)]) false)
        (deckOf [("a", "x", 3)]) = .ok c1 ∧
      Flashcards.Import (.opened (String.mk (cardChars "a".data "y".data "7".data)) false)
        (deckOf [("a", "x", 3)]) = .ok c1 ∧
      c1.term.lookup (String.mk "a".data) = some (String.mk "y".data) ∧
      c1.definition.lookup (String.mk "y".data) = some (String.mk "a".data) ∧
      c1.mistakes.lookup (String.mk "a".data) = some (decimalValue "7".data : Int) :=
  import_line_overwrites (deckOf [("a", "x", 3)]) "a".data "y".data "7".data
    (by decide) (by decide) (by decide) (by decide) (by decide) (by decide) (by decide)
    (by decide) (by decide) (by decide)

/-! ## Export followed by import -/

theorem GoMap.lookup_setAll {V : Type} (l : List (String × V)) (m : GoMap V) (k : String)
    (h : (l.map Prod.fst).Nodup) :
    (GoMap.setAll l m).lookup k =
      match GoMap.lookupList k l with
      | some v => some v
      | none => m.lookup k := by
  induction l generalizing m with
  | nil => rfl
  | cons e rest ih =>
    obtain ⟨a, v⟩ := e
    simp only [List.map_cons, List.nodup_cons] at h
    simp only [GoMap.setAll, GoMap.lookupList]
    rw [ih _ h.2]
    by_cases hk : k = a
    · subst hk
      have : GoMap.lookupList k rest = none := (GoMap.lookupList_eq_none_iff rest k).2 h.1
      simp [this, GoMap.lookup_set]
    · simp [hk, GoMap.lookup_set]

theorem assignAll_term (l : List (String × String × Int)) (c : Flashcards) :
    (assignAll l c).term = GoMap.setAll (l.map fun e => (e.1, e.2.1)) c.term := by
  induction l generalizing c with
  | nil => rfl
  | cons e rest ih =>
    obtain ⟨t, d, m⟩ := e
    simp [assignAll, GoMap.setAll, ih]

theorem assignAll_definition (l : List (String × String × Int)) (c : Flashcards) :
    (assignAll l c).definition = GoMap.setAll (l.map fun e => (e.2.1, e.1)) c.definition := by
  induction l generalizing c with
  | nil => rfl
  | cons e rest ih =>
    obtain ⟨t, d, m⟩ := e
    simp [assignAll, GoMap.setAll, ih]

theorem assignAll_mistakes (l : List (String × String × Int)) (c : Flashcards) :
    (assignAll l c).mistakes = GoMap.setAll (l.map fun e => (e.1, e.2.2)) c.mistakes := by
  induction l generalizing c with
  | nil => rfl
  | cons e rest ih =>
    obtain ⟨t, d, m⟩ := e
    simp [assignAll, GoMap.setAll, ih]

theorem importParse_exportLine (c : Flashcards) (t d : String) (m : Int)
    (ht : t.data ≠ []) (htq : ∀ ch ∈ t.data, ch ≠ '"')
    (hd : d.data ≠ []) (hdq : ∀ ch ∈ d.data, ch ≠ '"') (h0 : 0 ≤ m) (h1 : m ≤ maxInt) :
    Flashcards.importParse c (Flashcards.exportLine t d m) = .ok (t, d, m) := by
  have hl : (Flashcards.exportLine t d m).data = cardChars t.data d.data (fmtInt m) := rfl
  have hN : fmtInt m ≠ [] := by rw [fmtInt_nonneg m h0]; exact fmtNat_ne_nil _
  have hNd : ∀ ch ∈ fmtInt m, ch.isDigit = true := by
    rw [fmtInt_nonneg m h0]; exact fmtNat_digits _
  unfold Flashcards.importParse
  rw [hl, findStringSubmatch_card _ _ _ ht htq hd hdq hN hNd]
  simp only [atoi_fmtInt m h0 h1]

theorem importLoop_export (l : List (String × String)) (st : String → Int) (c : Flashcards)
    (hchars : ∀ e ∈ l, e.1.data ≠ [] ∧ (∀ ch ∈ e.1.data, ch ≠ '"') ∧
      e.2.data ≠ [] ∧ (∀ ch ∈ e.2.data, ch ≠ '"'))
    (hcount : ∀ e ∈ l, 0 ≤ st e.1 ∧ st e.1 ≤ maxInt) :
    Flashcards.importLoop (l.map fun e => Flashcards.exportLine e.1 e.2 (st e.1)) c =
      .ok (assignAll (l.map fun e => (e.1, e.2, st e.1)) c) := by
  induction l generalizing c with
  | nil => rfl
  | cons e rest ih =>
    obtain ⟨t, d⟩ := e
    have hc := hchars (t, d) (List.mem_cons_self _ _)
    have hm := hcount (t, d) (List.mem_cons_self _ _)
    simp only [List.map_cons, Flashcards.importLoop,
      importParse_exportLine c t d (st t) hc.1 hc.2.1 hc.2.2.1 hc.2.2.2 hm.1 hm.2, assignAll]
    exact ih _ (fun x hx => hchars x (List.mem_cons_of_mem _ hx))
      (fun x hx => hcount x (List.mem_cons_of_mem _ hx))

theorem lookupList_tracked (l : List (String × String)) (st : String → Int) (k : String) :
    GoMap.lookupList k (l.map fun e => (e.1, st e.1)) =
      if k ∈ l.map Prod.fst then some (st k) else none := by
  induction l with
  | nil => rfl
  | cons e rest ih =>
    obtain ⟨a, v⟩ := e
    by_cases hk : k = a
    · simp [GoMap.lookupList, hk]
    · simp only [List.map_cons, GoMap.lookupList, hk, if_false, ih, List.mem_cons, false_or]

theorem importLoop_exportLines (c : Flashcards)
    (hchars : ∀ e ∈ c.term.entries, e.1.data ≠ [] ∧ (∀ ch ∈ e.1.data, ch ≠ '"') ∧
      e.2.data ≠ [] ∧ (∀ ch ∈ e.2.data, ch ≠ '"'))
    (hdefs : (c.term.entries.map Prod.snd).Nodup)
    (hcount : ∀ t ∈ c.term.keys, 0 ≤ c.mistakes.intAt t ∧ c.mistakes.intAt t ≤ maxInt) :
    ∃ c1, Flashcards.importLoop (Flashcards.exportLines c) Flashcards.init = .ok c1 ∧
      (∀ t, c1.term.lookup t = c.term.lookup t) ∧
      (∀ t d, c1.definition.lookup d = some t ↔ c.term.lookup t = some d) ∧
      (MutualInverse c → ∀ d, c1.definition.lookup d = c.definition.lookup d) ∧
      (∀ t ∈ c.term.keys, c1.mistakes.lookup t = some (c.mistakes.intAt t)) ∧
      (∀ t, t ∉ c.term.keys → c1.mistakes.lookup t = none) := by
  have hloop := importLoop_export c.term.entries c.mistakes.intAt Flashcards.init hchars
    (fun e he => hcount e.1 (List.mem_map_of_mem Prod.fst he))
  have hdef : ∀ t d, (assignAll (c.term.entries.map fun e => (e.1, e.2, c.mistakes.intAt e.1))
      Flashcards.init).definition.lookup d = some t ↔ c.term.lookup t = some d := by
    intro t d
    have hnd : ((c.term.entries.map fun e => (e.2, e.1)).map Prod.fst).Nodup := by
      simpa [List.map_map, Function.comp_def] using hdefs
    rw [assignAll_definition, List.map_map, GoMap.lookup_setAll _ _ _
      (by simpa [List.map_map, Function.comp_def] using hdefs)]
    have h1 := GoMap.lookupList_eq_some_iff (c.term.entries.map fun e => (e.2, e.1)) hnd d t
    have h2 : (d, t) ∈ (c.term.entries.map fun e => (e.2, e.1)) ↔ (t, d) ∈ c.term.entries := by
      simp only [List.mem_map, Prod.mk.injEq]
      constructor
      · rintro ⟨⟨a, b⟩, hab, h3, h4⟩
        simp only at h3 h4
        subst h3 h4
        exact hab
      · intro h; exact ⟨(t, d), h, rfl, rfl⟩
    have h3 : ((fun e : String × String × Int => (e.2.1, e.1)) ∘
        fun e : String × String => (e.1, e.2, c.mistakes.intAt e.1)) =
        fun e : String × String => (e.2, e.1) := rfl
    rw [h3, GoMap.lookup_eq_some_iff, ← h2, ← h1]
    cases hl : GoMap.lookupList d (c.term.entries.map fun e => (e.2, e.1)) with
    | none => simp [Flashcards.init, GoMap.lookup_empty]
    | some v => simp
  refine ⟨assignAll (c.term.entries.map fun e => (e.1, e.2, c.mistakes.intAt e.1))
    Flashcards.init, ?_, ?_, hdef, ?_, ?_, ?_⟩
  · exact hloop
  · intro t
    have h3 : ((fun e : String × String × Int => (e.1, e.2.1)) ∘
        fun e : String × String => (e.1, e.2, c.mistakes.intAt e.1)) = id := rfl
    rw [assignAll_term, List.map_map, h3, List.map_id, GoMap.lookup_setAll _ _ _ c.term.nodup]
    unfold GoMap.lookup
    cases hl : GoMap.lookupList t c.term.entries with
    | none => rfl
    | some v => rfl
  · intro hinv d
    cases hd : c.definition.lookup d with
    | some t => exact (hdef t d).2 ((hinv t d).2 hd)
    | none =>
      cases h1 : (assignAll (c.term.entries.map fun e => (e.1, e.2, c.mistakes.intAt e.1))
          Flashcards.init).definition.lookup d with
      | none => rfl
      | some t =>
        have := (hinv t d).1 ((hdef t d).1 h1)
        rw [hd] at this
        cases this
  · intro t ht
    have h3 : ((fun e : String × String × Int => (e.1, e.2.2)) ∘
        fun e : String × String => (e.1, e.2, c.mistakes.intAt e.1)) =
        fun e : String × String => (e.1, c.mistakes.intAt e.1) := rfl
    have hnd : ((c.term.entries.map fun e => (e.1, c.mistakes.intAt e.1)).map Prod.fst).Nodup := by
      simpa [List.map_map, Function.comp_def] using c.term.nodup
    rw [assignAll_mistakes, List.map_map, h3, GoMap.lookup_setAll _ _ _ hnd, lookupList_tracked]
    have ht2 : t ∈ c.term.entries.map Prod.fst := ht
    simp [ht2]
  · intro t ht
    have h4 : ((fun e : String × String × Int => (e.1, e.2.2)) ∘
        fun e : String × String => (e.1, e.2, c.mistakes.intAt e.1)) =
        fun e : String × String => (e.1, c.mistakes.intAt e.1) := rfl
    have hnd : ((c.term.entries.map fun e => (e.1, c.mistakes.intAt e.1)).map Prod.fst).Nodup := by
      simpa [List.map_map, Function.comp_def] using c.term.nodup
    rw [assignAll_mistakes, List.map_map, h4, GoMap.lookup_setAll _ _ _ hnd, lookupList_tracked]
    have ht2 : t ∉ c.term.entries.map Prod.fst := ht
    simp [ht2, Flashcards.init, GoMap.lookup_empty]

theorem maxInt_nonneg : (0 : Int) ≤ maxInt := by
  unfold maxInt intSize
  norm_num

theorem long_term_facts (n : Nat) (hn : 0 < n) :
    List.replicate n 'a' ≠ [] ∧ (∀ ch ∈ List.replicate n 'a', ch ≠ '"') ∧
      '\n' ∉ List.replicate n 'a' ∧ byteLen (List.replicate n 'a') = n := by
  refine ⟨?_, ?_, ?_, ?_⟩
  · intro h
    have h1 := congrArg List.length h
    rw [List.length_replicate] at h1
    simp only [List.length_nil] at h1
    omega
  · intro ch hm
    rw [List.eq_of_mem_replicate hm]
    decide
  · intro hm
    have h1 := List.eq_of_mem_replicate hm
    revert h1
    decide
  · rw [byteLen_replicate]
    have h1 : ('a' : Char).utf8Size = 1 := rfl
    rw [h1, Nat.mul_one]

theorem byteLen_cardChars_ge (T D N : List Char) : byteLen T ≤ byteLen (cardChars T D N) := by
  simp only [cardChars, byteLen_append]
  omega

theorem commit_init_entries (t d : String) :
    (Flashcards.commit Flashcards.init t d).term.entries = [(t, d)] ∧
      (Flashcards.commit Flashcards.init t d).mistakes.entries = [(t, 0)] ∧
      Flashcards.exportLines (Flashcards.commit Flashcards.init t d) =
        [Flashcards.exportLine t d 0] := by
  simp [Flashcards.exportLines, Flashcards.commit, Flashcards.init, GoMap.empty, GoMap.set,
    GoMap.eraseKey, GoMap.intAt, GoMap.lookup, GoMap.lookupList]

theorem Import_long_card (T : List Char) (d : String) (hT : '\n' ∉ T) (hd : '\n' ∉ d.data)
    (hlen : maxScanTokenSize ≤ byteLen T) :
    Flashcards.Import
        (.opened (Flashcards.Export (Flashcards.commit Flashcards.init (String.mk T) d)) false)
        Flashcards.init = .error Flashcards.init := by
  unfold Flashcards.Export
  rw [(commit_init_entries (String.mk T) d).2.2]
  have he : Flashcards.exportLine (String.mk T) d 0 = String.mk (cardChars T d.data (fmtInt 0)) :=
    rfl
  rw [he]
  apply Import_too_long
  · exact newline_not_mem_cardChars _ _ _ hT hd (by decide)
  · exact le_trans hlen (byteLen_cardChars_ge _ _ _)

theorem long_card_conditions (T : List Char) (hne : T ≠ []) (hq : ∀ ch ∈ T, ch ≠ '"')
    (hn : '\n' ∉ T) :
    (∀ e ∈ (Flashcards.commit Flashcards.init (String.mk T) "d").term.entries,
      e.1.data ≠ [] ∧ (∀ ch ∈ e.1.data, ch ≠ '"') ∧ '\n' ∉ e.1.data ∧
        e.2.data ≠ [] ∧ (∀ ch ∈ e.2.data, ch ≠ '"') ∧ '\n' ∉ e.2.data) ∧
      ((Flashcards.commit Flashcards.init (String.mk T) "d").term.entries.map Prod.snd).Nodup ∧
      ∀ t m, (Flashcards.commit Flashcards.init (String.mk T) "d").mistakes.lookup t = some m →
        0 ≤ m ∧ m ≤ maxInt := by
  obtain ⟨hent, hmis, _⟩ := commit_init_entries (String.mk T) "d"
  refine ⟨?_, ?_, ?_⟩
  · intro e he
    rw [hent, List.mem_singleton] at he
    subst he
    exact ⟨hne, hq, hn, (by decide : ("d" : String).data ≠ []),
      (by decide : ∀ ch ∈ ("d" : String).data, ch ≠ '"'),
      (by decide : '\n' ∉ ("d" : String).data)⟩
  · rw [hent]
    simp
  · intro t m hl
    rw [GoMap.lookup_eq_some_iff, hmis, List.mem_singleton] at hl
    have hm : m = 0 := (Prod.mk.inj hl).2
    subst hm
    exact ⟨le_refl _, maxInt_nonneg⟩

theorem Add_init (t d : String) (ht : t ≠ "") (hd : d ≠ "") :
    Flashcards.Add [t, d] Flashcards.init = .ok (Flashcards.commit Flashcards.init t d, []) := by
  have h1 := addLoop_accept .term t [d] Flashcards.init ht rfl
  have h2 := addLoop_accept .definition d [] (Flashcards.init.setDeck .term t "") hd rfl
  simp only [Flashcards.Add, h1, h2]
  simp [Flashcards.commit, Flashcards.setDeck, Flashcards.init, GoMap.empty, GoMap.set,
    GoMap.eraseKey]

/-- C4 as stated fails: `Add` of the term of 70000 letters `a` with the definition `d` to
the empty deck gives a deck that meets the conditions of the claim; `Export` writes its
line, and the import of the file with that line into the empty deck panics, because the
line does not fit the buffer of the scanner. -/
theorem long_card_not_reimported :
    Flashcards.Add [String.mk (List.replicate 70000 'a'), "d"] Flashcards.init =
        .ok (Flashcards.commit Flashcards.init (String.mk (List.replicate 70000 'a')) "d", []) ∧
      Flashcards.Import
        (.opened (Flashcards.Export
          (Flashcards.commit Flashcards.init (String.mk (List.replicate 70000 'a')) "d")) false)
        Flashcards.init = .error Flashcards.init ∧
      ¬ ∀ c : Flashcards,
        (∀ e ∈ c.term.entries, e.1.data ≠ [] ∧ (∀ ch ∈ e.1.data, ch ≠ '"') ∧ '\n' ∉ e.1.data ∧
          e.2.data ≠ [] ∧ (∀ ch ∈ e.2.data, ch ≠ '"') ∧ '\n' ∉ e.2.data) →
        (c.term.entries.map Prod.snd).Nodup →
        (∀ t m, c.mistakes.lookup t = some m → 0 ≤ m ∧ m ≤ maxInt) →
        ∃ c1, Flashcards.Import (.opened (Flashcards.Export c) false) Flashcards.init = .ok c1 ∧
          ∀ t, c1.term.lookup t = c.term.lookup t := by
  obtain ⟨f1, f2, f3, f4⟩ := long_term_facts 70000 (by omega)
  have hlong := Import_long_card (List.replicate 70000 'a') "d" f3 (by decide)
    (by rw [f4]; unfold maxScanTokenSize; omega)
  obtain ⟨g1, g2, g3⟩ := long_card_conditions (List.replicate 70000 'a') f1 f2 f3
  have hadd := Add_init (String.mk (List.replicate 70000 'a')) "d"
    (fun h => f1 (congrArg String.data h)) (by decide)
  refine ⟨hadd, hlong, ?_⟩
  intro h
  obtain ⟨c1, h1, _⟩ := h _ g1 g2 g3
  rw [hlong] at h1
  cases h1

/-- C4, amended: for every deck whose terms and definitions are non-empty and free of quotes
and newlines, whose definitions are pairwise different, whose mistake counts are
non-negative values of `int`, and whose lines as `Export` writes them all have fewer than
65536 bytes, importing the file that holds exactly those lines into the empty deck succeeds
and gives the same definition for every term, the inverse map on the definitions, and the
same mistake count for every term (0 for a term without an entry in the mistakes). -/
theorem export_import_round_trip (c : Flashcards)
    (hchars : ∀ e ∈ c.term.entries, e.1.data ≠ [] ∧ (∀ ch ∈ e.1.data, ch ≠ '"') ∧
      '\n' ∉ e.1.data ∧ e.2.data ≠ [] ∧ (∀ ch ∈ e.2.data, ch ≠ '"') ∧ '\n' ∉ e.2.data)
    (hdefs : (c.term.entries.map Prod.snd).Nodup)
    (hcount : ∀ t m, c.term.lookup t ≠ none → c.mistakes.lookup t = some m →
      0 ≤ m ∧ m ≤ maxInt)
    (hlen : ∀ l ∈ Flashcards.exportLines c, byteLen l.data < maxScanTokenSize) :
    ∃ c1, Flashcards.Import (.opened (Flashcards.Export c) false) Flashcards.init = .ok c1 ∧
      (∀ t, c1.term.lookup t = c.term.lookup t) ∧
      (∀ t d, c1.definition.lookup d = some t ↔ c.term.lookup t = some d) ∧
      (MutualInverse c → ∀ d, c1.definition.lookup d = c.definition.lookup d) ∧
      (∀ t m, c.term.lookup t ≠ none → c.mistakes.lookup t = some m →
        c1.mistakes.lookup t = some m) ∧
      (∀ t, c.term.lookup t ≠ none → c.mistakes.lookup t = none →
        c1.mistakes.lookup t = some 0) ∧
      (∀ t, c.term.lookup t = none → c1.mistakes.lookup t = none) := by
  have hcount2 : ∀ t ∈ c.term.keys, 0 ≤ c.mistakes.intAt t ∧ c.mistakes.intAt t ≤ maxInt := by
    intro t ht
    have hne : c.term.lookup t ≠ none := fun h0 => (GoMap.lookup_eq_none_iff _ _).1 h0 ht
    unfold GoMap.intAt
    cases hl : c.mistakes.lookup t with
    | none => exact ⟨le_refl _, maxInt_nonneg⟩
    | some m => exact hcount t m hne hl
  have hchars2 : ∀ e ∈ c.term.entries, e.1.data ≠ [] ∧ (∀ ch ∈ e.1.data, ch ≠ '"') ∧
      e.2.data ≠ [] ∧ (∀ ch ∈ e.2.data, ch ≠ '"') :=
    fun e he => ⟨(hchars e he).1, (hchars e he).2.1, (hchars e he).2.2.2.1,
      (hchars e he).2.2.2.2.1⟩
  obtain ⟨c1, hloop, h1, h2, h3, h4, h5⟩ := importLoop_exportLines c hchars2 hdefs hcount2
  have hscan : scanLoop false (written (Flashcards.exportLines c)).data [] =
      (Flashcards.exportLines c, false) := by
    apply scanLoop_written
    intro l hl
    refine ⟨?_, ?_, hlen l hl⟩
    · obtain ⟨e, he, rfl⟩ := List.mem_map.1 hl
      have hm := hcount2 e.1 (List.mem_map_of_mem Prod.fst he)
      have hd : ∀ ch ∈ fmtInt (c.mistakes.intAt e.1), ch.isDigit = true := by
        rw [fmtInt_nonneg _ hm.1]
        exact fmtNat_digits _
      exact newline_not_mem_cardChars _ _ _ (hchars e he).2.2.1 (hchars e he).2.2.2.2.2
        (newline_not_digit _ hd)
    · obtain ⟨e, he, rfl⟩ := List.mem_map.1 hl
      exact dropCR_cardChars _ _ _
  refine ⟨c1, ?_, h1, h2, h3, ?_, ?_, ?_⟩
  · simp only [Flashcards.Import, Flashcards.Export, hscan, hloop]
    simp
  · intro t m hne hl
    have ht : t ∈ c.term.keys := by
      by_contra hn
      exact hne ((GoMap.lookup_eq_none_iff _ _).2 hn)
    rw [h4 t ht]
    simp [GoMap.intAt, hl]
  · intro t hne hl
    have ht : t ∈ c.term.keys := by
      by_contra hn
      exact hne ((GoMap.lookup_eq_none_iff _ _).2 hn)
    rw [h4 t ht]
    simp [GoMap.intAt, hl]
  · intro t hl
    exact h5 t ((GoMap.lookup_eq_none_iff _ _).1 hl)

/-- Instance of the amended C4: the deck of the cards `a`/`x` with 3 mistakes and `b`/`y`
with none. -/
theorem export_import_round_trip_witness :
    ∃ c1, Flashcards.Import
        (.opened (Flashcards.Export (deckOf [("a", "x", 3), ("b", "y", 0)])) false)
        Flashcards.init = .ok c1 ∧
      (∀ t, c1.term.lookup t = (deckOf [("a", "x", 3), ("b", "y", 0)]).term.lookup t) ∧
      (∀ t d, c1.definition.lookup d = some t ↔
        (deckOf [("a", "x", 3), ("b", "y", 0)]).term.lookup t = some d) ∧
      (MutualInverse (deckOf [("a", "x", 3), ("b", "y", 0)]) → ∀ d,
        c1.definition.lookup d = (deckOf [("a", "x", 3), ("b", "y", 0)]).definition.lookup d) ∧
      (∀ t m, (deckOf [("a", "x", 3), ("b", "y", 0)]).term.lookup t ≠ none →
        (deckOf [("a", "x", 3), ("b", "y", 0)]).mistakes.lookup t = some m →
        c1.mistakes.lookup t = some m) ∧
      (∀ t, (deckOf [("a", "x", 3), ("b", "y", 0)]).term.lookup t ≠ none →
        (deckOf [("a", "x", 3), ("b", "y", 0)]).mistakes.lookup t = none →
        c1.mistakes.lookup t = some 0) ∧
      (∀ t, (deckOf [("a", "x", 3), ("b", "y", 0)]).term.lookup t = none →
        c1.mistakes.lookup t = none) :=
  export_import_round_trip (deckOf [("a", "x", 3), ("b", "y", 0)]) (by decide) (by decide)
    (by
      intro t m _ hl
      rw [GoMap.lookup_eq_some_iff] at hl
      have hmem : (t, m) ∈ [("a", (3 : Int)), ("b", 0)] := hl
      simp only [List.mem_cons, List.mem_singleton, Prod.mk.injEq, List.not_mem_nil,
        or_false] at hmem
      rcases hmem with ⟨_, rfl⟩ | ⟨_, rfl⟩ <;> decide)
    (by decide)

/-! ## The hardest card -/

theorem sliceAt_length_append {α : Type} (p : List α) (e : α) (rest : List α) :
    Flashcards.sliceAt ((p ++ [e]) ++ rest) (((p ++ [e]).length : Int) - 1) = some e := by
  have h : (((p ++ [e]).length : Int) - 1) = (p.length : Int) := by
    simp
  rw [h]
  unfold Flashcards.sliceAt
  have h2 : ¬ ((p.length : Int) < 0) := by omega
  simp only [h2, if_false, Int.toNat_ofNat, List.append_assoc, List.singleton_append,
    List.get?_eq_getElem?]
  rw [List.getElem?_append_right (Nat.le_refl _)]
  simp

theorem findHardestLoop_run (maxM : Int) (pre : List termMistakes) :
    ∀ (rest : List termMistakes) (acc : List String),
      Flashcards.findHardestLoop (pre ++ rest) maxM pre.length (pre.length : Int) acc =
        some (acc ++ (pre.reverse.takeWhile fun e => decide (e.mistakes = maxM)).map
          termMistakes.term) := by
  induction pre using List.reverseRecOn with
  | nil => intro rest acc; simp [Flashcards.findHardestLoop]
  | append_singleton p e ih =>
    intro rest acc
    have hlen : (p ++ [e]).length = p.length + 1 := by simp
    have hs := sliceAt_length_append p e rest
    rw [hlen] at hs ⊢
    simp only [Flashcards.findHardestLoop, hs]
    by_cases hm : e.mistakes = maxM
    · have hpos : ((↑(p.length + 1) : Int) - 1) = (p.length : Int) := by simp
      have happ : (p ++ [e]) ++ rest = p ++ (e :: rest) := by simp
      simp only [hm, ne_eq, not_true_eq_false, if_false, hpos, happ]
      rw [ih (e :: rest) (acc ++ [e.term])]
      simp [hm]
    · simp [hm]

theorem takeWhile_eq_filter_of_descending (M : Int) (R : List termMistakes)
    (hs : R.Pairwise fun a b => b.mistakes ≤ a.mistakes) (hM : ∀ x ∈ R, x.mistakes ≤ M) :
    (R.takeWhile fun e => decide (e.mistakes = M)) = R.filter fun e => decide (e.mistakes = M) := by
  induction R with
  | nil => rfl
  | cons x R ih =>
    rw [List.pairwise_cons] at hs
    by_cases hx : x.mistakes = M
    · simp only [List.takeWhile_cons, List.filter_cons, hx, decide_True, if_true]
      rw [ih hs.2 (fun y hy => hM y (List.mem_cons_of_mem _ hy))]
    · have hlt : x.mistakes < M := lt_of_le_of_ne (hM x (List.mem_cons_self _ _)) hx
      have hnone : (R.filter fun e => decide (e.mistakes = M)) = [] := by
        rw [List.filter_eq_nil_iff]
        intro y hy
        have := hs.1 y hy
        simp only [decide_eq_true_eq]
        omega
      simp [List.takeWhile_cons, List.filter_cons, hx, hnone]

theorem filter_orderedInsert (M : Int) (a : termMistakes) (l : List termMistakes) :
    ((l.orderedInsert mistakesLE a).filter fun e => decide (e.mistakes = M)) =
      (a :: l).filter fun e => decide (e.mistakes = M) := by
  induction l with
  | nil => rfl
  | cons b l ih =>
    by_cases hab : mistakesLE a b
    · simp [List.orderedInsert, hab]
    · have hlt : b.mistakes < a.mistakes := by
        unfold mistakesLE at hab
        omega
      simp only [List.orderedInsert, hab, if_false]
      rw [List.filter_cons, ih]
      by_cases ha : a.mistakes = M
      · have hb : ¬ b.mistakes = M := by omega
        simp [List.filter_cons, ha, hb]
      · simp [List.filter_cons, ha]

theorem filter_insertionSort (M : Int) (l : List termMistakes) :
    ((l.insertionSort mistakesLE).filter fun e => decide (e.mistakes = M)) =
      l.filter fun e => decide (e.mistakes = M) := by
  induction l with
  | nil => rfl
  | cons a l ih =>
    rw [List.insertionSort, filter_orderedInsert, List.filter_cons, List.filter_cons, ih]

theorem findHardestCard_sorted (sS : List termMistakes) (M : Int)
    (hs : sS.Sorted mistakesLE) (hM : ∀ x ∈ sS, x.mistakes ≤ M) :
    Flashcards.findHardestCard sS M sS.length =
      some ((sS.filter fun e => decide (e.mistakes = M)).reverse.map termMistakes.term) := by
  have h := findHardestLoop_run M sS [] []
  simp only [List.append_nil, List.nil_append] at h
  unfold Flashcards.findHardestCard
  rw [h, takeWhile_eq_filter_of_descending M sS.reverse
    (List.pairwise_reverse.2 hs) (fun x hx => hM x (List.mem_reverse.1 hx)),
    List.filter_reverse]

theorem sliceAt_last {α : Type} (l : List α) :
    Flashcards.sliceAt l ((l.length : Int) - 1) = l.getLast? := by
  cases l using List.reverseRecOn with
  | nil => simp [Flashcards.sliceAt]
  | append_singleton p e =>
    have := sliceAt_length_append p e []
    simpa using this

theorem HardestCard_empty (c : Flashcards) (h : c.mistakes.entries = []) :
    Flashcards.HardestCard c = .ok .noErrors := by
  have hs : Flashcards.createStatsSlice c = [⟨"", 0⟩] := by
    simp [Flashcards.createStatsSlice, GoMap.len, h]
  simp only [Flashcards.HardestCard]
  rw [hs]
  rfl

theorem HardestCard_nonempty (c : Flashcards) (h : c.mistakes.entries ≠ []) :
    ∃ M : Int, (∀ e ∈ c.mistakes.entries, e.2 ≤ M) ∧ (∃ e ∈ c.mistakes.entries, e.2 = M) ∧
      Flashcards.HardestCard c =
        .ok (if 0 < M then
          .cards ((c.mistakes.entries.filter fun e => decide (e.2 = M)).reverse.map Prod.fst) M
          else .noErrors) := by
  have hlen : ¬ c.mistakes.len = 0 := by
    simpa [GoMap.len] using h
  have hs : Flashcards.createStatsSlice c =
      (c.mistakes.entries.map fun e => termMistakes.mk e.1 e.2).insertionSort mistakesLE := by
    simp [Flashcards.createStatsSlice, hlen]
  have hsorted := List.sorted_insertionSort mistakesLE
    (c.mistakes.entries.map fun e => termMistakes.mk e.1 e.2)
  have hmem : ∀ x, x ∈ (c.mistakes.entries.map fun e => termMistakes.mk e.1 e.2).insertionSort
      mistakesLE ↔ ∃ e ∈ c.mistakes.entries, termMistakes.mk e.1 e.2 = x := by
    intro x
    rw [List.mem_insertionSort, List.mem_map]
  have hfilter := filter_insertionSort
  generalize hsS : (c.mistakes.entries.map fun e => termMistakes.mk e.1 e.2).insertionSort
    mistakesLE = sS at hs hsorted hmem
  have hne : sS ≠ [] := by
    intro h0
    have h1 := List.length_insertionSort mistakesLE
      (c.mistakes.entries.map fun e => termMistakes.mk e.1 e.2)
    rw [hsS, h0] at h1
    simp at h1
    exact h (List.length_eq_zero.1 h1.symm)
  obtain ⟨p, last, hpl⟩ : ∃ p last, sS = p ++ [last] := by
    cases sS using List.reverseRecOn with
    | nil => exact absurd rfl hne
    | append_singleton p e => exact ⟨p, e, rfl⟩
  have hlast : sS.getLast? = some last := by simp [hpl]
  have hmax : ∀ x ∈ sS, x.mistakes ≤ last.mistakes := by
    intro x hx
    rw [hpl] at hx hsorted
    rcases List.mem_append.1 hx with hx1 | hx1
    · exact (List.pairwise_append.1 hsorted).2.2 x hx1 last (List.mem_singleton_self _)
    · rw [List.mem_singleton.1 hx1]
  have hlm : last ∈ sS := by rw [hpl]; simp
  refine ⟨last.mistakes, ?_, ?_, ?_⟩
  · intro e he
    exact hmax _ ((hmem _).2 ⟨e, he, rfl⟩)
  · obtain ⟨e, he, hel⟩ := (hmem last).1 hlm
    exact ⟨e, he, by rw [← hel]⟩
  · simp only [Flashcards.HardestCard]
    rw [hs, sliceAt_last, hlast]
    simp only [gt_iff_lt]
    by_cases hpos : 0 < last.mistakes
    · simp only [hpos, if_true]
      rw [findHardestCard_sorted sS last.mistakes hsorted hmax, ← hsS, hfilter, List.filter_map]
      simp [List.map_map, Function.comp_def]
    · simp [hpos]

/-- C6: `HardestCard` returns for every table. When some count is positive it reports the
maximum count `M` of the table, which is positive, and a list without repetition whose
members are exactly the terms with count `M`. When no count is positive, in particular when
all counts are zero or nothing is tracked, it reports that no card has errors. -/
theorem hardest_card_collects_maxima (c : Flashcards) :
    ∃ out, Flashcards.HardestCard c = .ok out ∧
      ((∃ e ∈ c.mistakes.entries, 0 < e.2) →
        ∃ hardCards M, out = .cards hardCards M ∧ 0 < M ∧
          (∀ e ∈ c.mistakes.entries, e.2 ≤ M) ∧ (∃ e ∈ c.mistakes.entries, e.2 = M) ∧
          hardCards.Nodup ∧ ∀ t, t ∈ hardCards ↔ c.mistakes.lookup t = some M) ∧
      ((∀ e ∈ c.mistakes.entries, e.2 ≤ 0) → out = .noErrors) := by
  by_cases h : c.mistakes.entries = []
  · refine ⟨_, HardestCard_empty c h, ?_, fun _ => rfl⟩
    rintro ⟨e, he, _⟩
    rw [h] at he
    cases he
  · obtain ⟨M, hle, hex, hout⟩ := HardestCard_nonempty c h
    refine ⟨_, hout, ?_, ?_⟩
    · rintro ⟨e, he, hpos⟩
      have hM : 0 < M := lt_of_lt_of_le hpos (hle e he)
      refine ⟨(c.mistakes.entries.filter fun e => decide (e.2 = M)).reverse.map Prod.fst, M,
        by simp [hM], hM, hle, hex, ?_, ?_⟩
      · rw [← List.filter_reverse]
        have hnd : (c.mistakes.entries.reverse.map Prod.fst).Nodup := by
          rw [List.map_reverse, List.nodup_reverse]
          exact c.mistakes.nodup
        exact (List.Sublist.map Prod.fst (List.filter_sublist _)).nodup hnd
      · intro t
        rw [GoMap.lookup_eq_some_iff]
        simp only [List.mem_map, List.mem_reverse, List.mem_filter, decide_eq_true_eq]
        constructor
        · rintro ⟨⟨a, b⟩, ⟨hab, hb⟩, rfl⟩
          simp only at hb
          rw [← hb]
          exact hab
        · intro ht
          exact ⟨(t, M), ⟨ht, rfl⟩, rfl⟩
    · intro hall
      obtain ⟨e, he, heM⟩ := hex
      have hM : ¬ 0 < M := by
        have := hall e he
        omega
      simp [hM]

/-- C7 as stated fails: when the table `a:3, b:5, c:5, d:1` is visited in the order
`a, b, c, d` the hardest cards come out as `c, b`, which is not ascending; visited in the
order `c, b, a, d` they come out as `b, c`. -/
theorem hardest_cards_not_sorted :
    Flashcards.HardestCard (deckOf [("a", "x", 3), ("b", "y", 5), ("c", "z", 5), ("d", "w", 1)])
        = .ok (.cards ["c", "b"] 5) ∧
      ¬ (["c", "b"] : List String).Sorted (fun s t => s < t) ∧
      Flashcards.HardestCard (deckOf [("c", "z", 5), ("b", "y", 5), ("a", "x", 3), ("d", "w", 1)])
        = .ok (.cards ["b", "c"] 5) ∧
      ¬ ∀ (c : Flashcards) (hardCards : List String) (M : Int),
        Flashcards.HardestCard c = .ok (.cards hardCards M) →
          hardCards.Sorted (fun s t => s < t) := by
  have h1 : Flashcards.HardestCard
      (deckOf [("a", "x", 3), ("b", "y", 5), ("c", "z", 5), ("d", "w", 1)])
        = .ok (.cards ["c", "b"] 5) := by decide
  have h3 : ¬ ("c".data < "b".data) := by decide
  have h2 : ¬ (["c", "b"] : List String).Sorted (fun s t => s < t) :=
    fun hs => h3 (String.lt_iff_toList_lt.1
      (List.rel_of_sorted_cons hs "b" (List.mem_singleton_self _)))
  exact ⟨h1, h2, by decide, fun h => h2 (h _ _ _ h1)⟩

theorem perm_pair_cases (L : List String) (h : L.Perm ["b", "c"]) :
    L = ["b", "c"] ∨ L = ["c", "b"] := by
  have hlen := h.length_eq
  have hnd : L.Nodup := h.nodup_iff.2 (by decide)
  match L, hlen, hnd, h with
  | [u, v], _, hnd, h =>
    have hu : u ∈ ["b", "c"] := h.subset (List.mem_cons_self _ _)
    have hv : v ∈ ["b", "c"] := h.subset (List.mem_cons_of_mem _ (List.mem_cons_self _ _))
    simp only [List.mem_cons, List.mem_singleton, List.not_mem_nil, or_false] at hu hv
    simp only [List.nodup_cons, List.mem_singleton, List.not_mem_nil, not_false_eq_true,
      List.nodup_nil, and_true] at hnd
    rcases hu with rfl | rfl <;> rcases hv with rfl | rfl
    · exact absurd rfl hnd
    · exact Or.inl rfl
    · exact Or.inr rfl
    · exact absurd rfl hnd

theorem HardestCard_positive (c : Flashcards) (h : ∃ e ∈ c.mistakes.entries, 0 < e.2) :
    ∃ M : Int, 0 < M ∧ (∀ e ∈ c.mistakes.entries, e.2 ≤ M) ∧
      (∃ e ∈ c.mistakes.entries, e.2 = M) ∧
      Flashcards.HardestCard c = .ok (.cards (hardestOf c M) M) := by
  obtain ⟨e, he, hpos⟩ := h
  have hne : c.mistakes.entries ≠ [] := by
    intro h0
    rw [h0] at he
    cases he
  obtain ⟨M, hle, hex, hout⟩ := HardestCard_nonempty c hne
  have hM : 0 < M := lt_of_lt_of_le hpos (hle e he)
  refine ⟨M, hM, hle, hex, ?_⟩
  rw [hout]
  simp [hM, hardestOf]

theorem mem_hardestOf (c : Flashcards) (M : Int) (t : String) :
    t ∈ hardestOf c M ↔ c.mistakes.lookup t = some M := by
  rw [GoMap.lookup_eq_some_iff]
  unfold hardestOf
  simp only [List.mem_map, List.mem_reverse, List.mem_filter, decide_eq_true_eq]
  constructor
  · rintro ⟨⟨a, b⟩, ⟨hab, hb⟩, rfl⟩
    simp only at hb
    rw [← hb]
    exact hab
  · intro ht
    exact ⟨(t, M), ⟨ht, rfl⟩, rfl⟩

theorem nodup_hardestOf (c : Flashcards) (M : Int) : (hardestOf c M).Nodup := by
  unfold hardestOf
  rw [← List.filter_reverse]
  have hnd : (c.mistakes.entries.reverse.map Prod.fst).Nodup := by
    rw [List.map_reverse, List.nodup_reverse]
    exact c.mistakes.nodup
  exact (List.Sublist.map Prod.fst (List.filter_sublist _)).nodup hnd

/-- C7, amended: for every table with a positive count, `HardestCard` reports the maximum
`M` of the counts, which is positive, and lists the terms with count `M`, each once and no
other term, in the reverse of the order in which the table is visited. Another order of
visiting the same table gives the same `M` and a rearrangement of the same terms. For the
table `a:3, b:5, c:5, d:1` the count is 5 and the list is `b, c` or `c, b`. -/
theorem hardest_cards_follow_iteration (c c2 : Flashcards)
    (h : ∃ e ∈ c.mistakes.entries, 0 < e.2)
    (hp : c2.mistakes.entries.Perm c.mistakes.entries) :
    ∃ M : Int, 0 < M ∧
      (∀ e ∈ c.mistakes.entries, e.2 ≤ M) ∧ (∃ e ∈ c.mistakes.entries, e.2 = M) ∧
      Flashcards.HardestCard c = .ok (.cards (hardestOf c M) M) ∧
      hardestOf c M =
        (c.mistakes.entries.filter fun e => decide (e.2 = M)).reverse.map Prod.fst ∧
      (hardestOf c M).Nodup ∧ (∀ t, t ∈ hardestOf c M ↔ c.mistakes.lookup t = some M) ∧
      Flashcards.HardestCard c2 = .ok (.cards (hardestOf c2 M) M) ∧
      (hardestOf c2 M).Perm (hardestOf c M) ∧
      (c.mistakes.entries.Perm [("a", 3), ("b", 5), ("c", 5), ("d", 1)] →
        M = 5 ∧ (hardestOf c M = ["b", "c"] ∨ hardestOf c M = ["c", "b"])) := by
  obtain ⟨M, hM, hle, hex, hout⟩ := HardestCard_positive c h
  have h2 : ∃ e ∈ c2.mistakes.entries, 0 < e.2 := by
    obtain ⟨e, he, hpos⟩ := h
    exact ⟨e, hp.mem_iff.2 he, hpos⟩
  obtain ⟨M2, _, hle2, hex2, hout2⟩ := HardestCard_positive c2 h2
  have hMM : M2 = M := by
    obtain ⟨e, he, heM⟩ := hex
    obtain ⟨e2, he2, heM2⟩ := hex2
    have a1 := hle2 e (hp.mem_iff.2 he)
    have a2 := hle e2 (hp.mem_iff.1 he2)
    omega
  subst hMM
  refine ⟨M2, hM, hle, hex, hout, rfl, nodup_hardestOf c M2, mem_hardestOf c M2, hout2, ?_, ?_⟩
  · unfold hardestOf
    exact ((List.reverse_perm _).trans ((hp.filter _).trans (List.reverse_perm _).symm)).map _
  · intro ht
    have h5 : M2 = 5 := by
      obtain ⟨e, he, heM⟩ := hex
      have hb := hle ("b", 5) (ht.mem_iff.2 (by decide))
      have hmem := ht.mem_iff.1 he
      simp only [List.mem_cons, List.mem_singleton, List.not_mem_nil, or_false] at hmem
      have : e.2 ≤ 5 := by
        rcases hmem with rfl | rfl | rfl | rfl <;> decide
      simp only at hb
      omega
    subst h5
    refine ⟨rfl, perm_pair_cases _ ?_⟩
    unfold hardestOf
    have hf := (((List.reverse_perm _).trans
      (ht.filter fun e => decide (e.2 = (5 : Int)))).map Prod.fst)
    have hv : (([("a", 3), ("b", 5), ("c", 5), ("d", 1)] : List (String × Int)).filter
        fun e => decide (e.2 = (5 : Int))).map Prod.fst = ["b", "c"] := by decide
    rw [hv] at hf
    exact hf

/-- Instance of the amended C7: the table `a:3, b:5, c:5, d:1` visited in the order
`a, b, c, d` and in the order `c, b, a, d`. -/
theorem hardest_cards_follow_iteration_witness :
    ∃ M : Int, 0 < M ∧
      (∀ e ∈ (deckOf [("a", "x", 3), ("b", "y", 5), ("c", "z", 5), ("d", "w", 1)]).mistakes.entries,
        e.2 ≤ M) ∧
      (∃ e ∈ (deckOf [("a", "x", 3), ("b", "y", 5), ("c", "z", 5), ("d", "w", 1)]).mistakes.entries,
        e.2 = M) ∧
      Flashcards.HardestCard
          (deckOf [("a", "x", 3), ("b", "y", 5), ("c", "z", 5), ("d", "w", 1)]) =
        .ok (.cards
          (hardestOf (deckOf [("a", "x", 3), ("b", "y", 5), ("c", "z", 5), ("d", "w", 1)]) M) M) ∧
      hardestOf (deckOf [("a", "x", 3), ("b", "y", 5), ("c", "z", 5), ("d", "w", 1)]) M =
        ((deckOf [("a", "x", 3), ("b", "y", 5), ("c", "z", 5), ("d", "w", 1)]).mistakes.entries.filter
          fun e => decide (e.2 = M)).reverse.map Prod.fst ∧
      (hardestOf (deckOf [("a", "x", 3), ("b", "y", 5), ("c", "z", 5), ("d", "w", 1)]) M).Nodup ∧
      (∀ t, t ∈ hardestOf (deckOf [("a", "x", 3), ("b", "y", 5), ("c", "z", 5), ("d", "w", 1)]) M ↔
        (deckOf [("a", "x", 3), ("b", "y", 5), ("c", "z", 5), ("d", "w", 1)]).mistakes.lookup t =
          some M) ∧
      Flashcards.HardestCard
          (deckOf [("c", "z", 5), ("b", "y", 5), ("a", "x", 3), ("d", "w", 1)]) =
        .ok (.cards
          (hardestOf (deckOf [("c", "z", 5), ("b", "y", 5), ("a", "x", 3), ("d", "w", 1)]) M) M) ∧
      (hardestOf (deckOf [("c", "z", 5), ("b", "y", 5), ("a", "x", 3), ("d", "w", 1)]) M).Perm
        (hardestOf (deckOf [("a", "x", 3), ("b", "y", 5), ("c", "z", 5), ("d", "w", 1)]) M) ∧
      ((deckOf [("a", "x", 3), ("b", "y", 5), ("c", "z", 5), ("d", "w", 1)]).mistakes.entries.Perm
          [("a", 3), ("b", 5), ("c", 5), ("d", 1)] →
        M = 5 ∧
          (hardestOf (deckOf [("a", "x", 3), ("b", "y", 5), ("c", "z", 5), ("d", "w", 1)]) M =
              ["b", "c"] ∨
            hardestOf (deckOf [("a", "x", 3), ("b", "y", 5), ("c", "z", 5), ("d", "w", 1)]) M =
              ["c", "b"])) :=
  hardest_cards_follow_iteration
    (deckOf [("a", "x", 3), ("b", "y", 5), ("c", "z", 5), ("d", "w", 1)])
    (deckOf [("c", "z", 5), ("b", "y", 5), ("a", "x", 3), ("d", "w", 1)])
    ⟨("a", 3), by decide, by decide⟩ (by decide)

/-! ## Asking -/

theorem getRandomNum_range (n : Nat) (r : Nat) (hn : 0 < n) :
    ∃ i : Int, Flashcards.getRandomNum 0 ((n : Int) - 1) r = some i ∧ 0 ≤ i ∧ i < n := by
  have hpos : (0 : Int) < n := by exact_mod_cast hn
  refine ⟨(r : Int) % (n : Int), ?_, Int.emod_nonneg _ (ne_of_gt hpos), Int.emod_lt_of_pos _ hpos⟩
  have h1 : ¬ ((n : Int) - 1 - 0 + 1 ≤ 0) := by omega
  have h2 : (n : Int) - 1 - 0 + 1 = n := by omega
  have h3 : n ≠ 0 := by omega
  simp [Flashcards.getRandomNum, Flashcards.Intn, h1, h2, h3]

/-- C10: in a state without terms, `Ask` for `n >= 1` questions panics in `rand.Intn(0)`
with the state as it was, whatever input follows; for a non-empty pool the number drawn is
an index of the pool. -/
theorem ask_empty_deck_panics (c : Flashcards) (rnd : Nat → Nat) (x : String)
    (rest : List String) (n : Int) (pool : List String) (r : Nat)
    (hempty : c.term.entries = []) (hn : atoi x = some n) (h1 : 1 ≤ n) (hpool : pool ≠ []) :
    Flashcards.getOrderedTerms c = [] ∧
      Flashcards.getRandomNum 0 (((Flashcards.getOrderedTerms c).length : Int) - 1) (rnd 0) = none ∧
      Flashcards.Ask rnd (x :: rest) c = .error c ∧
      ∃ i : Int, Flashcards.getRandomNum 0 ((pool.length : Int) - 1) r = some i ∧
        0 ≤ i ∧ i < pool.length ∧ ∃ t ∈ pool, Flashcards.sliceAt pool i = some t := by
  have hpool0 : Flashcards.getOrderedTerms c = [] := by
    simp [Flashcards.getOrderedTerms, GoMap.keys, hempty]
  have hrand : ∀ k, Flashcards.getRandomNum 0 (((([] : List String).length : Nat) : Int) - 1) k
      = none := by
    intro k
    simp [Flashcards.getRandomNum, Flashcards.Intn]
  refine ⟨hpool0, ?_, ?_, ?_⟩
  · rw [hpool0]
    exact hrand _
  · obtain ⟨m, hm⟩ : ∃ m : Nat, n.toNat = m + 1 := ⟨n.toNat - 1, by omega⟩
    simp only [Flashcards.Ask, hn, hm, Flashcards.askLoop, hpool0, Flashcards.askEntry, hrand]
  · obtain ⟨i, hi, h0, hlt⟩ := getRandomNum_range pool.length r (List.length_pos.2 hpool)
    refine ⟨i, hi, h0, hlt, ?_⟩
    have hlt2 : i.toNat < pool.length := by omega
    refine ⟨pool.get ⟨i.toNat, hlt2⟩, List.get_mem _ _ _, ?_⟩
    have hneg : ¬ i < 0 := by omega
    simp [Flashcards.sliceAt, hneg, List.getElem?_eq_getElem hlt2]

/-- Instance of C10: the empty deck asked once, and the pool `a, b` with the draw 5. -/
theorem ask_empty_deck_panics_witness :
    Flashcards.getOrderedTerms Flashcards.init = [] ∧
      Flashcards.getRandomNum 0
        (((Flashcards.getOrderedTerms Flashcards.init).length : Int) - 1) ((fun _ => 7) 0) = none ∧
      Flashcards.Ask (fun _ => 7) ["1", "answer"] Flashcards.init = .error Flashcards.init ∧
      ∃ i : Int, Flashcards.getRandomNum 0 (((["a", "b"] : List String).length : Int) - 1) 5
          = some i ∧
        0 ≤ i ∧ i < (["a", "b"] : List String).length ∧
        ∃ t ∈ (["a", "b"] : List String), Flashcards.sliceAt ["a", "b"] i = some t :=
  ask_empty_deck_panics Flashcards.init (fun _ => 7) "1" ["answer"] 1 ["a", "b"] 5 rfl
    (by decide) (by decide) (by decide)

/-! ## Reachable states -/

theorem addEntry_cases (g : DeckGroup) (x : String) (c : Flashcards) :
    Flashcards.addEntry g x c = (c, "") ∨
      (x ≠ "" ∧ Flashcards.addEntry g x c = (c.setDeck g x "", x)) := by
  unfold Flashcards.addEntry
  by_cases hx : x = ""
  · simp [hx]
  · by_cases hc : (c.deck g).contains x = true
    · simp [hx, hc]
    · right
      simp [hx, hc]

theorem addLoop_ok (g : DeckGroup) (inputs : List String) (c c1 : Flashcards) (e : String)
    (rest : List String) (h : Flashcards.addLoop g inputs c = .ok (c1, e, rest)) :
    c1 = c.setDeck g e "" := by
  induction inputs with
  | nil => simp [Flashcards.addLoop] at h
  | cons x xs ih =>
    unfold Flashcards.addLoop at h
    rcases addEntry_cases g x c with h1 | ⟨hx, h1⟩
    · rw [h1] at h
      simp only [if_true] at h
      exact ih h
    · rw [h1] at h
      simp only [hx, if_false, Except.ok.injEq, Prod.mk.injEq] at h
      rw [← h.1, ← h.2.1]

theorem Add_ok (inputs : List String) (c c1 : Flashcards) (rest : List String)
    (h : Flashcards.Add inputs c = .ok (c1, rest)) :
    ∃ t d, c1 = Flashcards.commit ((c.setDeck .term t "").setDeck .definition d "") t d := by
  unfold Flashcards.Add at h
  cases h1 : Flashcards.addLoop .term inputs c with
  | error e => rw [h1] at h; cases h
  | ok r1 =>
    obtain ⟨c2, t, rest1⟩ := r1
    rw [h1] at h
    simp only at h
    cases h2 : Flashcards.addLoop .definition rest1 c2 with
    | error e => rw [h2] at h; cases h
    | ok r2 =>
      obtain ⟨c3, d, rest2⟩ := r2
      rw [h2] at h
      simp only [Except.ok.injEq, Prod.mk.injEq] at h
      refine ⟨t, d, ?_⟩
      rw [← h.1, addLoop_ok _ _ _ _ _ _ h2, addLoop_ok _ _ _ _ _ _ h1]

theorem Tracked_add (inputs : List String) (c c1 : Flashcards) (rest : List String)
    (h : Flashcards.Add inputs c = .ok (c1, rest)) (hc : Tracked c) : Tracked c1 := by
  obtain ⟨t, d, rfl⟩ := Add_ok inputs c c1 rest h
  intro k hk
  simp only [Flashcards.commit, Flashcards.setDeck, GoMap.lookup_set] at hk ⊢
  by_cases hkt : k = t
  · simp [hkt]
  · simp only [hkt, if_false] at hk ⊢
    exact hc k hk

theorem Tracked_remove (inputs : List String) (c c1 : Flashcards) (rest : List String)
    (h : Flashcards.Remove inputs c = .ok (c1, rest)) (hc : Tracked c) : Tracked c1 := by
  unfold Flashcards.Remove at h
  cases inputs with
  | nil => cases h
  | cons t xs =>
    simp only at h
    cases hl : c.term.lookup t with
    | none =>
      rw [hl] at h
      simp only [Except.ok.injEq, Prod.mk.injEq] at h
      rw [← h.1]
      exact hc
    | some d =>
      rw [hl] at h
      simp only [Except.ok.injEq, Prod.mk.injEq] at h
      rw [← h.1]
      intro k hk
      simp only [GoMap.lookup_delete] at hk ⊢
      by_cases hkt : k = t
      · simp [hkt] at hk
      · simp only [hkt, if_false] at hk ⊢
        exact hc k hk

theorem Tracked_importLoop (lines : List String) (c c1 : Flashcards)
    (h : Flashcards.importLoop lines c = .ok c1) (hc : Tracked c) : Tracked c1 := by
  induction lines generalizing c with
  | nil =>
    simp only [Flashcards.importLoop, Except.ok.injEq] at h
    rw [← h]
    exact hc
  | cons line rest ih =>
    unfold Flashcards.importLoop at h
    cases hp : Flashcards.importParse c line with
    | error e => rw [hp] at h; cases h
    | ok r =>
      obtain ⟨t, d, m⟩ := r
      rw [hp] at h
      simp only at h
      refine ih _ h ?_
      intro k hk
      simp only [GoMap.lookup_set] at hk ⊢
      by_cases hkt : k = t
      · simp [hkt]
      · simp only [hkt, if_false] at hk ⊢
        exact hc k hk

theorem Tracked_import (file : Flashcards.FileResult) (c c1 : Flashcards)
    (h : Flashcards.Import file c = .ok c1) (hc : Tracked c) : Tracked c1 := by
  unfold Flashcards.Import at h
  cases file with
  | notExist =>
    simp only [Except.ok.injEq] at h
    rw [← h]
    exact hc
  | failed => cases h
  | opened content readErr =>
    simp only at h
    cases hl : Flashcards.importLoop (scanLoop readErr content.data []).1 c with
    | error e => rw [hl] at h; cases h
    | ok c2 =>
      rw [hl] at h
      simp only at h
      cases hs : (scanLoop readErr content.data []).2 with
      | true => simp [hs] at h
      | false =>
        simp only [hs, Bool.false_eq_true, if_false, Except.ok.injEq] at h
        rw [← h]
        exact Tracked_importLoop _ c c2 hl hc

theorem askEntry_ok (pool : List String) (r : Nat) (inputs : List String) (c c1 : Flashcards)
    (rest : List String) (h : Flashcards.askEntry pool r inputs c = .ok (c1, rest)) :
    c1 = c ∨ ∃ k v, c1 = { c with mistakes := c.mistakes.set k v } := by
  unfold Flashcards.askEntry at h
  cases hr : Flashcards.getRandomNum 0 ((pool.length : Int) - 1) r with
  | none => rw [hr] at h; cases h
  | some i =>
    rw [hr] at h
    simp only at h
    cases hs : Flashcards.sliceAt pool i with
    | none => rw [hs] at h; cases h
    | some picked =>
      rw [hs] at h
      simp only at h
      cases inputs with
      | nil => cases h
      | cons answer xs =>
        simp only at h
        by_cases ha : answer = c.term.strAt picked
        · simp only [ha, if_true, Except.ok.injEq, Prod.mk.injEq] at h
          exact Or.inl h.1.symm
        · simp only [ha, if_false, Except.ok.injEq, Prod.mk.injEq] at h
          exact Or.inr ⟨_, _, h.1.symm⟩

theorem Tracked_askEntry (pool : List String) (r : Nat) (inputs : List String)
    (c c1 : Flashcards) (rest : List String)
    (h : Flashcards.askEntry pool r inputs c = .ok (c1, rest)) (hc : Tracked c) :
    Tracked c1 := by
  rcases askEntry_ok pool r inputs c c1 rest h with rfl | ⟨k, v, rfl⟩
  · exact hc
  · intro t ht
    simp only [GoMap.lookup_set] at ht ⊢
    by_cases hkt : t = k
    · simp [hkt]
    · simp only [hkt, if_false]
      exact hc t ht

theorem Tracked_askLoop (pool : List String) (rnd : Nat → Nat) (todo : Nat) :
    ∀ (i : Nat) (inputs : List String) (c c1 : Flashcards) (rest : List String),
      Flashcards.askLoop pool rnd todo i inputs c = .ok (c1, rest) → Tracked c → Tracked c1 := by
  induction todo with
  | zero =>
    intro i inputs c c1 rest h hc
    simp only [Flashcards.askLoop, Except.ok.injEq, Prod.mk.injEq] at h
    rw [← h.1]
    exact hc
  | succ n ih =>
    intro i inputs c c1 rest h hc
    unfold Flashcards.askLoop at h
    cases ha : Flashcards.askEntry pool (rnd i) inputs c with
    | error e => rw [ha] at h; cases h
    | ok r =>
      obtain ⟨c2, rest2⟩ := r
      rw [ha] at h
      simp only at h
      exact ih _ _ _ _ _ h (Tracked_askEntry pool (rnd i) inputs c c2 rest2 ha hc)

theorem Tracked_ask (rnd : Nat → Nat) (inputs : List String) (c c1 : Flashcards)
    (rest : List String) (h : Flashcards.Ask rnd inputs c = .ok (c1, rest)) (hc : Tracked c) :
    Tracked c1 := by
  unfold Flashcards.Ask at h
  cases inputs with
  | nil => cases h
  | cons x xs =>
    simp only at h
    cases hn : atoi x with
    | none => rw [hn] at h; cases h
    | some n =>
      rw [hn] at h
      simp only at h
      exact Tracked_askLoop _ rnd _ _ _ _ _ _ h hc

theorem lookupList_zeroed (l : List (String × Int)) (k : String) :
    GoMap.lookupList k (l.map fun e => (e.1, (0 : Int))) =
      (GoMap.lookupList k l).map fun _ => 0 := by
  induction l with
  | nil => rfl
  | cons e rest ih =>
    obtain ⟨a, v⟩ := e
    by_cases hk : k = a
    · simp [GoMap.lookupList, hk]
    · simp [GoMap.lookupList, hk, ih]

theorem lookup_ResetStats (c : Flashcards) (k : String) :
    (Flashcards.ResetStats c).mistakes.lookup k = (c.mistakes.lookup k).map fun _ => 0 :=
  lookupList_zeroed _ _

theorem Tracked_reset (c : Flashcards) (hc : Tracked c) : Tracked (Flashcards.ResetStats c) := by
  intro t ht
  rw [lookup_ResetStats]
  have h1 : c.mistakes.lookup t ≠ none := hc t ht
  cases hl : c.mistakes.lookup t with
  | none => exact absurd hl h1
  | some v => simp

theorem Tracked_reachable (c : Flashcards) (h : Reachable c) : Tracked c := by
  induction h with
  | init => intro t ht; exact absurd rfl ht
  | add c c1 inputs rest _ h ih => exact Tracked_add inputs c c1 rest h ih
  | remove c c1 inputs rest _ h ih => exact Tracked_remove inputs c c1 rest h ih
  | importFile c c1 file _ h ih => exact Tracked_import file c c1 h ih
  | ask c c1 rnd inputs rest _ h ih => exact Tracked_ask rnd inputs c c1 rest h ih
  | reset c _ ih => exact Tracked_reset c ih

/-- C9: in every state reachable from the empty deck by `Add`, `Remove`, `Import`, `Ask` and
`ResetStats`, every term of the term map has an entry in the mistakes; and `Remove` of a
term `t` of the deck ends with neither the card of `t` nor the mistakes entry of `t`. -/
theorem terms_are_tracked (c : Flashcards) (h : Reachable c) :
    (∀ t, c.term.lookup t ≠ none → c.mistakes.lookup t ≠ none) ∧
      (∀ t ∈ c.term.keys, t ∈ c.mistakes.keys) ∧
      ∀ (t d : String) (rest : List String), c.term.lookup t = some d →
        ∃ c1, Flashcards.Remove (t :: rest) c = .ok (c1, rest) ∧ Reachable c1 ∧
          c1.term.lookup t = none ∧ c1.definition.lookup d = none ∧
          c1.mistakes.lookup t = none := by
  have ht := Tracked_reachable c h
  refine ⟨ht, ?_, ?_⟩
  · intro t hmem
    by_contra hn
    exact ht t (fun h0 => (GoMap.lookup_eq_none_iff _ _).1 h0 hmem)
      ((GoMap.lookup_eq_none_iff _ _).2 hn)
  · intro t d rest hl
    have hr : Flashcards.Remove (t :: rest) c =
        .ok (⟨c.term.delete t, c.definition.delete d, c.mistakes.delete t⟩, rest) := by
      simp only [Flashcards.Remove, hl]
    exact ⟨_, hr, Reachable.remove c _ _ _ h hr, GoMap.lookup_delete_self _ _,
      GoMap.lookup_delete_self _ _, GoMap.lookup_delete_self _ _⟩

/-- Instance of C9: the state after `Add` has read the term `cat` and the definition
`animal` in the empty deck. -/
theorem terms_are_tracked_witness :
    (∀ t, (Flashcards.commit ((Flashcards.init.setDeck .term "cat" "").setDeck .definition
        "animal" "") "cat" "animal").term.lookup t ≠ none →
      (Flashcards.commit ((Flashcards.init.setDeck .term "cat" "").setDeck .definition
        "animal" "") "cat" "animal").mistakes.lookup t ≠ none) ∧
    (∀ t ∈ (Flashcards.commit ((Flashcards.init.setDeck .term "cat" "").setDeck .definition
        "animal" "") "cat" "animal").term.keys,
      t ∈ (Flashcards.commit ((Flashcards.init.setDeck .term "cat" "").setDeck .definition
        "animal" "") "cat" "animal").mistakes.keys) ∧
    ∀ (t d : String) (rest : List String),
      (Flashcards.commit ((Flashcards.init.setDeck .term "cat" "").setDeck .definition
        "animal" "") "cat" "animal").term.lookup t = some d →
      ∃ c1, Flashcards.Remove (t :: rest)
          (Flashcards.commit ((Flashcards.init.setDeck .term "cat" "").setDeck .definition
            "animal" "") "cat" "animal") = .ok (c1, rest) ∧ Reachable c1 ∧
        c1.term.lookup t = none ∧ c1.definition.lookup d = none ∧
        c1.mistakes.lookup t = none :=
  terms_are_tracked _
    (Reachable.add Flashcards.init _ ["cat", "animal"] [] Reachable.init (by decide))

/-! ## The inverse directions under `Add` and `Remove` -/

theorem addLoop_fresh (g : DeckGroup) (inputs : List String) (c c1 : Flashcards) (e : String)
    (rest : List String) (h : Flashcards.addLoop g inputs c = .ok (c1, e, rest)) :
    e ≠ "" ∧ (c.deck g).lookup e = none := by
  induction inputs with
  | nil => simp [Flashcards.addLoop] at h
  | cons x xs ih =>
    unfold Flashcards.addLoop at h
    by_cases hx : x = ""
    · have h1 : Flashcards.addEntry g x c = (c, "") := by simp [Flashcards.addEntry, hx]
      rw [h1] at h
      simp only [if_true] at h
      exact ih h
    · by_cases hc : (c.deck g).contains x = true
      · rw [addEntry_reject g x c hc] at h
        simp only [if_true] at h
        exact ih h
      · have hn : (c.deck g).lookup x = none := by
          simpa [GoMap.contains] using hc
        rw [addEntry_accept g x c hx hn] at h
        simp only [hx, if_false, Except.ok.injEq, Prod.mk.injEq] at h
        rw [← h.2.1]
        exact ⟨hx, hn⟩

theorem Add_fresh (inputs : List String) (c c1 : Flashcards) (rest : List String)
    (h : Flashcards.Add inputs c = .ok (c1, rest)) :
    ∃ t d, c.term.lookup t = none ∧ c.definition.lookup d = none ∧
      c1 = Flashcards.commit ((c.setDeck .term t "").setDeck .definition d "") t d := by
  unfold Flashcards.Add at h
  cases h1 : Flashcards.addLoop .term inputs c with
  | error e => rw [h1] at h; cases h
  | ok r1 =>
    obtain ⟨c2, t, rest1⟩ := r1
    rw [h1] at h
    simp only at h
    cases h2 : Flashcards.addLoop .definition rest1 c2 with
    | error e => rw [h2] at h; cases h
    | ok r2 =>
      obtain ⟨c3, d, rest2⟩ := r2
      rw [h2] at h
      simp only [Except.ok.injEq, Prod.mk.injEq] at h
      have e1 := addLoop_ok _ _ _ _ _ _ h1
      have e2 := addLoop_ok _ _ _ _ _ _ h2
      have f1 := (addLoop_fresh _ _ _ _ _ _ h1).2
      have f2 := (addLoop_fresh _ _ _ _ _ _ h2).2
      refine ⟨t, d, f1, ?_, ?_⟩
      · rw [e1] at f2
        exact f2
      · rw [← h.1, e2, e1]

/-- `Add` keeps the two directions inverse to each other. -/
theorem MutualInverse_add (inputs : List String) (c c1 : Flashcards) (rest : List String)
    (h : Flashcards.Add inputs c = .ok (c1, rest)) (hc : MutualInverse c) : MutualInverse c1 := by
  obtain ⟨t, d, ht, hd, rfl⟩ := Add_fresh inputs c c1 rest h
  intro k v
  simp only [Flashcards.commit, Flashcards.setDeck, GoMap.lookup_set]
  by_cases hk : k = t
  · subst hk
    by_cases hv : v = d
    · subst hv; simp
    · have h1 : ¬ c.definition.lookup v = some k := fun h2 => by
        have := (hc k v).2 h2
        rw [ht] at this
        cases this
      simp only [if_true, Option.some.injEq, hv, if_false, h1, iff_false]
      exact fun h2 => hv h2.symm
  · by_cases hv : v = d
    · subst hv
      have h1 : ¬ c.term.lookup k = some v := fun h2 => by
        have := (hc k v).1 h2
        rw [hd] at this
        cases this
      simp only [hk, if_false, h1, if_true, Option.some.injEq, false_iff]
      exact fun h2 => hk h2.symm
    · simp only [hk, hv, if_false]
      exact hc k v

/-- `Remove` keeps the two directions inverse to each other. -/
theorem MutualInverse_remove (inputs : List String) (c c1 : Flashcards) (rest : List String)
    (h : Flashcards.Remove inputs c = .ok (c1, rest)) (hc : MutualInverse c) :
    MutualInverse c1 := by
  unfold Flashcards.Remove at h
  cases inputs with
  | nil => cases h
  | cons t xs =>
    simp only at h
    cases hl : c.term.lookup t with
    | none =>
      rw [hl] at h
      simp only [Except.ok.injEq, Prod.mk.injEq] at h
      rw [← h.1]
      exact hc
    | some d =>
      rw [hl] at h
      simp only [Except.ok.injEq, Prod.mk.injEq] at h
      rw [← h.1]
      intro k v
      simp only [GoMap.lookup_delete]
      by_cases hk : k = t
      · subst hk
        by_cases hv : v = d
        · simp [hv]
        · have h1 : ¬ c.definition.lookup v = some k := fun h2 => by
            have := (hc k v).2 h2
            rw [hl] at this
            exact hv (Option.some.inj this).symm
          simp [hv, h1]
      · by_cases hv : v = d
        · subst hv
          have h1 : ¬ c.term.lookup k = some v := fun h2 => by
            have h3 := (hc k v).1 h2
            have h4 := (hc t v).1 hl
            rw [h3] at h4
            exact hk (Option.some.inj h4)
          simp [hk, h1]
        · simp only [hk, hv, if_false]
          exact hc k v

/-! ## Counting mistakes -/

/-- C8 fails on the code: after the import of `a`/`x` and then `b`/`x` the state is
reachable, `a` is a term of the deck with definition `x` and count 0, and it is the term at
index 1 of the pool. A question drawn at index 1 and answered with `w` is counted for `b`:
the count of `a` is still 0 and the count of `b` is 1. After the further import of `b`/`z`
the same draw prints the term `b`, whose definition is `z`, and the answer `x` is accepted
as correct: no count changes. -/
theorem wrong_answer_counted_for_other_term :
    (∃ s c1, Flashcards.Import (.opened (written ["(\"a\":\"x\"):(0)", "(\"b\":\"x\"):(0)"]) false)
        Flashcards.init = .ok s ∧
      Reachable s ∧
      s.term.lookup "a" = some "x" ∧ s.mistakes.lookup "a" = some 0 ∧
      Flashcards.sliceAt (Flashcards.getOrderedTerms s) 1 = some "a" ∧
      Flashcards.getRandomNum 0 (((Flashcards.getOrderedTerms s).length : Int) - 1) 1 = some 1 ∧
      Flashcards.Ask (fun _ => 1) ["1", "w"] s = .ok (c1, []) ∧
      c1.mistakes.lookup "a" = some 0 ∧ c1.mistakes.lookup "b" = some 1) ∧
    ∃ s c1, Flashcards.Import
        (.opened (written ["(\"a\":\"x\"):(0)", "(\"b\":\"x\"):(0)", "(\"b\":\"z\"):(0)"])
          false)
        Flashcards.init = .ok s ∧
      Reachable s ∧
      Flashcards.sliceAt (Flashcards.getOrderedTerms s) 1 = some "a" ∧
      s.definition.strAt (s.term.strAt "a") = "b" ∧ s.term.lookup "b" = some "z" ∧
      s.mistakes.lookup "b" = some 0 ∧
      Flashcards.Ask (fun _ => 1) ["1", "x"] s = .ok (c1, []) ∧
      c1.mistakes.lookup "a" = some 0 ∧ c1.mistakes.lookup "b" = some 0 := by
  have h : Flashcards.Import (.opened (written ["(\"a\":\"x\"):(0)", "(\"b\":\"x\"):(0)"]) false)
      Flashcards.init = .ok (deckOf [("b", "x", 0), ("a", "x", 0)]) := by decide
  have h2 : Flashcards.Import
      (.opened (written ["(\"a\":\"x\"):(0)", "(\"b\":\"x\"):(0)", "(\"b\":\"z\"):(0)"])
          false)
      Flashcards.init = .ok (deckOf [("b", "z", 0), ("b", "x", 0), ("a", "x", 0)]) := by decide
  refine ⟨⟨deckOf [("b", "x", 0), ("a", "x", 0)],
    { (deckOf [("b", "x", 0), ("a", "x", 0)]) with
      mistakes := (deckOf [("b", "x", 0), ("a", "x", 0)]).mistakes.set "b" 1 },
    h, Reachable.importFile _ _ _ Reachable.init h, by decide, by decide, by decide, by decide,
    by decide, by decide, by decide⟩,
    deckOf [("b", "z", 0), ("b", "x", 0), ("a", "x", 0)],
    deckOf [("b", "z", 0), ("b", "x", 0), ("a", "x", 0)],
    h2, Reachable.importFile _ _ _ Reachable.init h2, by decide, by decide, by decide, by decide,
    by decide, by decide, by decide⟩

theorem wrapInt_of_range (x : Int) (h0 : minInt ≤ x) (h1 : x ≤ maxInt) : wrapInt x = x := by
  unfold wrapInt
  unfold minInt at h0 ⊢
  unfold maxInt at h1
  unfold intSize at *
  norm_num at h0 h1 ⊢
  omega

theorem askEntry_wrong (pool : List String) (r : Nat) (i : Int) (t d answer : String)
    (rest : List String) (c : Flashcards)
    (hr : Flashcards.getRandomNum 0 ((pool.length : Int) - 1) r = some i)
    (hp : Flashcards.sliceAt pool i = some t) (ht : c.term.lookup t = some d)
    (hinv : MutualInverse c) (ha : answer ≠ d) :
    Flashcards.askEntry pool r (answer :: rest) c =
      .ok ({ c with mistakes := c.mistakes.set t (wrapInt (c.mistakes.intAt t + 1)) }, rest) := by
  have h1 : c.term.strAt t = d := by simp [GoMap.strAt, ht]
  have h2 : c.definition.strAt d = t := by simp [GoMap.strAt, (hinv t d).1 ht]
  simp only [Flashcards.askEntry, hr, hp, h1, h2, ha, if_false]

theorem askEntry_correct (pool : List String) (r : Nat) (i : Int) (t : String)
    (rest : List String) (c : Flashcards)
    (hr : Flashcards.getRandomNum 0 ((pool.length : Int) - 1) r = some i)
    (hp : Flashcards.sliceAt pool i = some t) :
    Flashcards.askEntry pool r (c.term.strAt t :: rest) c = .ok (c, rest) := by
  simp only [Flashcards.askEntry, hr, hp, if_true]

/-- In a state whose two directions are inverse to each other, `k` questions that all draw
the term `t` of the deck and are all answered with something else than its definition add
`k` to the count of `t`, as long as the count stays in the range of `int`, and leave every
other count and the deck as they were. -/
theorem wrong_answers_counted (pool : List String) (rnd : Nat → Nat) (t d : String)
    (hdraw : ∀ j, ∃ i, Flashcards.getRandomNum 0 ((pool.length : Int) - 1) (rnd j) = some i ∧
      Flashcards.sliceAt pool i = some t) (k : Nat) :
    ∀ (j : Nat) (answers rest : List String) (c : Flashcards) (v : Int),
      MutualInverse c → c.term.lookup t = some d → c.mistakes.intAt t = v → 0 ≤ v →
      v + k ≤ maxInt → answers.length = k → (∀ a ∈ answers, a ≠ d) →
      ∃ c1, Flashcards.askLoop pool rnd k j (answers ++ rest) c = .ok (c1, rest) ∧
        c1.term = c.term ∧ c1.definition = c.definition ∧
        c1.mistakes.intAt t = v + k ∧
        ∀ t2, t2 ≠ t → c1.mistakes.lookup t2 = c.mistakes.lookup t2 := by
  induction k with
  | zero =>
    intro j answers rest c v _ _ hv h0 _ hlen _
    have hnil : answers = [] := List.length_eq_zero.1 hlen
    subst hnil
    exact ⟨c, rfl, rfl, rfl, by simpa using hv, fun _ _ => rfl⟩
  | succ n ih =>
    intro j answers rest c v hinv ht hv h0 hmax hlen hwrong
    cases answers with
    | nil => simp at hlen
    | cons a as =>
      obtain ⟨i, hr, hp⟩ := hdraw j
      have ha : a ≠ d := hwrong a (List.mem_cons_self _ _)
      have hstep := askEntry_wrong pool (rnd j) i t d a (as ++ rest) c hr hp ht hinv ha
      have hmin : minInt ≤ v + 1 := by
        unfold minInt intSize
        norm_num
        omega
      have hmaxv : v + 1 ≤ maxInt := by
        push_cast at hmax
        omega
      rw [hv, wrapInt_of_range (v + 1) hmin hmaxv] at hstep
      have hinv2 : MutualInverse { c with mistakes := c.mistakes.set t (v + 1) } :=
        fun x y => hinv x y
      have hv2 : ({ c with mistakes := c.mistakes.set t (v + 1) } : Flashcards).mistakes.intAt t
          = v + 1 := by
        simp [GoMap.intAt, GoMap.lookup_set]
      obtain ⟨c1, hloop, e1, e2, e3, e4⟩ := ih (j + 1) as rest
        { c with mistakes := c.mistakes.set t (v + 1) } (v + 1) hinv2 ht hv2 (by omega)
        (by push_cast at hmax; omega) (by simpa using hlen)
        (fun x hx => hwrong x (List.mem_cons_of_mem _ hx))
      refine ⟨c1, ?_, e1, e2, ?_, ?_⟩
      · simp only [List.cons_append, Flashcards.askLoop, hstep]
        exact hloop
      · rw [e3]
        push_cast
        ring
      · intro t2 h2
        rw [e4 t2 h2]
        simp [GoMap.lookup_set, h2]
